import Mathlib

/-!
Verification of the `bevy_asset_preview` crate's core logic: the
priority-ordered asset load queue (`asset/task.rs`, `asset/loader.rs`),
the multi-resolution preview cache (`preview/cache.rs`), the preview
request and resize pipeline (`preview/image.rs`), and the save pipeline
(`asset/saver.rs`).

Modelling conventions:
- Rust `u64`/`u32` counters are modelled as `Nat` (with an explicit
  `< 2 ^ 32` bound where `u32` parsing can overflow).
- `AssetPath` / `Path` values are modelled as `List Char` of their
  Unix-style textual form; `Path::parent`, `Path::file_name` and
  `Path::join` are modelled for such strings (no `.`-component
  normalisation, which only matters for non-canonical paths).
- `HashMap` is modelled as an association list with `alLookup` /
  `alUpdate` / `alRemove`; `Entity`, `AssetId` and `Handle` identifiers
  are modelled as `Nat`.
- Bevy `Commands` despawns are deferred: systems that despawn entities
  return the set of despawned entities and apply it after the system
  body, as the real scheduler does.
-/

/-! ### Association lists (model of `HashMap`) -/

def alLookup {α β : Type} [DecidableEq α] (k : α) : List (α × β) → Option β
  | [] => none
  | (k', v) :: rest => if k' = k then some v else alLookup k rest

def alUpdate {α β : Type} [DecidableEq α] (k : α) (v : β) : List (α × β) → List (α × β)
  | [] => [(k, v)]
  | (k', v') :: rest => if k' = k then (k, v) :: rest else (k', v') :: alUpdate k v rest

def alRemove {α β : Type} [DecidableEq α] (k : α) : List (α × β) → List (α × β)
  | [] => []
  | (k', v') :: rest => if k' = k then alRemove k rest else (k', v') :: alRemove k rest

def alKeys {α β : Type} (l : List (α × β)) : List α := l.map Prod.fst

/-! ### Load priority (`asset/priority.rs`) -/

/-- `LoadPriority` from `asset/priority.rs`. -/
inductive LoadPriority : Type
  | currentAccess
  | hotReload
  | preload
deriving DecidableEq, Repr

/-- `LoadPriority::value`: higher value means higher priority. -/
def LoadPriority.value : LoadPriority → Nat
  | .currentAccess => 3
  | .hotReload => 2
  | .preload => 1

/-- `Ord for LoadPriority`: compares by `value`. -/
def LoadPriority.cmp (a b : LoadPriority) : Ordering :=
  compare a.value b.value

/-! ### Load tasks (`asset/task.rs`) -/

/-- `LoadTask` from `asset/task.rs`. -/
structure LoadTask : Type where
  path : List Char
  priority : LoadPriority
  taskId : Nat
deriving DecidableEq, Repr

/-- `Ord for LoadTask`: priority first (higher first), then reverse task-id
comparison so that, in a max-heap, equal-priority pops favour the smaller
(earlier) id. -/
def LoadTask.cmp (a b : LoadTask) : Ordering :=
  match LoadPriority.cmp a.priority b.priority with
  | .eq => compare b.taskId a.taskId
  | o => o

/-- Model of `BinaryHeap::pop` on the queue contents: removes and returns a
maximal element with respect to `LoadTask.cmp` (the heap's `Ord`), which is
unique whenever task ids are distinct. -/
def popMax : List LoadTask → Option (LoadTask × List LoadTask)
  | [] => none
  | t :: ts =>
    match popMax ts with
    | none => some (t, [])
    | some (m, rest) =>
      if LoadTask.cmp t m = .lt then some (m, t :: rest) else some (t, ts)

/-! ### The asset loader (`asset/loader.rs`) -/

/-- `ActiveLoadTask` component: per-in-flight-task tracking record.  The
`Handle<Image>` field is modelled by its `AssetId` (a `Nat`). -/
structure ActiveLoadTaskM : Type where
  taskId : Nat
  path : List Char
  handleId : Nat
  priority : LoadPriority
deriving DecidableEq, Repr

/-- `AssetLoader` resource state. -/
structure AssetLoaderM : Type where
  queue : List LoadTask
  nextTaskId : Nat
  maxConcurrent : Nat
  activeTasks : Nat
  taskPaths : List (Nat × List Char)
  handleToEntity : List (Nat × Nat)
  taskToHandle : List (Nat × Nat)
deriving DecidableEq, Repr

/-- `AssetLoader::new(max_concurrent)`. -/
def AssetLoaderM.new (maxConcurrent : Nat) : AssetLoaderM :=
  ⟨[], 0, maxConcurrent, 0, [], [], []⟩

/-- `AssetLoader::submit`: allocates the next task id, pushes the task onto
the priority queue and records its path; returns the updated loader and the
task id. -/
def AssetLoaderM.submit (s : AssetLoaderM) (path : List Char)
    (priority : LoadPriority) : AssetLoaderM × Nat :=
  let taskId := s.nextTaskId
  let task : LoadTask := ⟨path, priority, taskId⟩
  ({ s with
      queue := s.queue ++ [task]
      nextTaskId := taskId + 1
      taskPaths := alUpdate taskId path s.taskPaths }, taskId)

/-- `AssetLoader::get_task_path`. -/
def AssetLoaderM.getTaskPath (s : AssetLoaderM) (taskId : Nat) : Option (List Char) :=
  alLookup taskId s.taskPaths

/-- `AssetLoader::queue_len`. -/
def AssetLoaderM.queueLen (s : AssetLoaderM) : Nat := s.queue.length

/-- `AssetLoader::pop_next`. -/
def AssetLoaderM.popNext (s : AssetLoaderM) : Option (LoadTask × AssetLoaderM) :=
  match popMax s.queue with
  | none => none
  | some (task, rest) => some (task, { s with queue := rest })

/-- `AssetLoader::can_start_task`. -/
def AssetLoaderM.canStartTask (s : AssetLoaderM) : Bool :=
  s.activeTasks < s.maxConcurrent

/-- `AssetLoader::start_task`. -/
def AssetLoaderM.startTask (s : AssetLoaderM) : AssetLoaderM :=
  { s with activeTasks := s.activeTasks + 1 }

/-- `AssetLoader::finish_task`: decrements, clamped at zero. -/
def AssetLoaderM.finishTask (s : AssetLoaderM) : AssetLoaderM :=
  if 0 < s.activeTasks then { s with activeTasks := s.activeTasks - 1 } else s

/-- `AssetLoader::spawn_load_task`: issues the load (`load_fn` models the
idempotent `AssetServer::load`) and builds the `ActiveLoadTask` record. -/
def AssetLoaderM.spawnLoadTask (task : LoadTask) (loadFn : List Char → Nat) :
    ActiveLoadTaskM :=
  ⟨task.taskId, task.path, loadFn task.path, task.priority⟩

/-- `AssetLoader::register_task`. -/
def AssetLoaderM.registerTask (s : AssetLoaderM) (taskId : Nat) (entity : Nat)
    (handleId : Nat) : AssetLoaderM :=
  { s with
      handleToEntity := alUpdate handleId entity s.handleToEntity
      taskToHandle := alUpdate taskId handleId s.taskToHandle }

/-- `AssetLoader::get_entity_by_handle`. -/
def AssetLoaderM.getEntityByHandle (s : AssetLoaderM) (handleId : Nat) : Option Nat :=
  alLookup handleId s.handleToEntity

/-- `AssetLoader::get_handle_id_by_task`. -/
def AssetLoaderM.getHandleIdByTask (s : AssetLoaderM) (taskId : Nat) : Option Nat :=
  alLookup taskId s.taskToHandle

/-- `AssetLoader::cleanup_task`. -/
def AssetLoaderM.cleanupTask (s : AssetLoaderM) (taskId : Nat) (handleId : Nat) :
    AssetLoaderM :=
  { s with
      taskPaths := alRemove taskId s.taskPaths
      handleToEntity := alRemove handleId s.handleToEntity
      taskToHandle := alRemove taskId s.taskToHandle }

/-- The ECS world as seen by the loader systems: the loader resource, the
entity allocator and the spawned `ActiveLoadTask` components. -/
structure LoaderWorld : Type where
  loader : AssetLoaderM
  nextEntity : Nat
  tasks : List (Nat × ActiveLoadTaskM)
deriving DecidableEq, Repr

/-- Body of the `process_load_queue` admission loop, with an explicit bound
on the number of iterations: the loop pops one task per iteration, so it
never runs more than `queue.length` times. -/
def processLoadQueueGo (loadFn : List Char → Nat) : Nat → LoaderWorld → LoaderWorld
  | 0, w => w
  | fuel + 1, w =>
    if w.loader.canStartTask then
      match popMax w.loader.queue with
      | some (task, rest) =>
        let activeTask := AssetLoaderM.spawnLoadTask task loadFn
        let loader1 := { w.loader with queue := rest }
        let loader2 := loader1.startTask
        let ent := w.nextEntity
        let loader3 := loader2.registerTask task.taskId ent activeTask.handleId
        processLoadQueueGo loadFn fuel ⟨loader3, ent + 1, w.tasks ++ [(ent, activeTask)]⟩
      | none => w
    else w

/-- `process_load_queue`: admission loop; pops and starts tasks while
`can_start_task` holds, spawning one tracking entity per popped task and
registering its handle. -/
def processLoadQueue (loadFn : List Char → Nat) (w : LoaderWorld) : LoaderWorld :=
  processLoadQueueGo loadFn w.loader.queue.length w

/-- The operations on the loader that claim C2 ranges over. -/
inductive LoaderOpM : Type
  | submit (path : List Char) (priority : LoadPriority)
  | processQueue
  | finish

/-- One step of the loader state machine. -/
def LoaderWorld.step (loadFn : List Char → Nat) (w : LoaderWorld) :
    LoaderOpM → LoaderWorld
  | .submit p pr => { w with loader := (w.loader.submit p pr).1 }
  | .processQueue => processLoadQueue loadFn w
  | .finish => { w with loader := w.loader.finishTask }

/-- Run a sequence of loader operations from the initial world with a fresh
`AssetLoader::new max`. -/
def LoaderWorld.run (loadFn : List Char → Nat) (maxConcurrent : Nat)
    (ops : List LoaderOpM) : LoaderWorld :=
  ops.foldl (LoaderWorld.step loadFn) ⟨AssetLoaderM.new maxConcurrent, 0, []⟩

/-! ### Claims C1 and C2 -/

/-- Pop repeatedly from a queue, collecting the popped tasks in order. -/
def popAllTasks : Nat → List LoadTask → List LoadTask
  | 0, _ => []
  | n + 1, q =>
    match popMax q with
    | none => []
    | some (m, rest) => m :: popAllTasks n rest

/-- The loader after the five submissions of claim C1:
`[Preload(a), CurrentAccess(b), HotReload(c), Preload(d), CurrentAccess(e)]`. -/
def c1Loader : AssetLoaderM :=
  let s0 := AssetLoaderM.new 4
  let s1 := (s0.submit "a.png".data .preload).1
  let s2 := (s1.submit "b.png".data .currentAccess).1
  let s3 := (s2.submit "c.png".data .hotReload).1
  let s4 := (s3.submit "d.png".data .preload).1
  (s4.submit "e.png".data .currentAccess).1

/-! ### Images and resizing (`preview/image.rs`) -/

/-- The texture formats relevant to `Image::try_into_dynamic`: the first
three are among the formats the conversion supports; the float formats are
not supported and make the conversion fail. -/
inductive TextureFormatM : Type
  | rgba8UnormSrgb
  | rgba8Unorm
  | r8Unorm
  | r32Float
  | rgba32Float
deriving DecidableEq, Repr

/-- A bevy `Image`, modelled by its dimensions and texture format (pixel
contents are irrelevant to the verified properties). -/
structure ImageM : Type where
  width : Nat
  height : Nat
  format : TextureFormatM
deriving DecidableEq, Repr

/-- A `DynamicImage`, modelled by its dimensions. -/
structure DynImageM : Type where
  width : Nat
  height : Nat
deriving DecidableEq, Repr

/-- `Image::try_into_dynamic`: fails for unsupported texture formats. -/
def ImageM.tryIntoDynamic (img : ImageM) : Except String DynImageM :=
  match img.format with
  | .rgba8UnormSrgb | .rgba8Unorm | .r8Unorm => .ok ⟨img.width, img.height⟩
  | .r32Float | .rgba32Float => .error "unsupported texture format"

/-- `DynamicImage::resize_exact` (Lanczos3 filtering): the output has exactly
the requested dimensions. -/
def DynImageM.resizeExact (_ : DynImageM) (w h : Nat) : DynImageM := ⟨w, h⟩

/-- `Image::from_dynamic` with `is_srgb = true`: yields an `Rgba8UnormSrgb`
image of the same dimensions. -/
def imageFromDynamic (d : DynImageM) : ImageM := ⟨d.width, d.height, .rgba8UnormSrgb⟩

/-- `resize_image_for_preview`: returns `none` when the image is already
small enough (the caller then reuses the original handle), otherwise scales
the longer edge to `target_size` and the shorter edge proportionally.  The
source computes the shorter edge as `(short as f32 * target as f32 / long
as f32) as u32`; the `as u32` cast truncates toward zero, modelled here by
natural floor division (exact for in-range preview dimensions).  The
conversion to a dynamic image can itself fail, in which case the source
also returns `none`. -/
def resizeImageForPreview (image : ImageM) (targetSize : Nat) : Option ImageM :=
  let width := image.width
  let height := image.height
  if width ≤ targetSize ∧ height ≤ targetSize then none
  else
    let newSize : Nat × Nat :=
      if width > height then
        (targetSize, height * targetSize / width)
      else
        (width * targetSize / height, targetSize)
    match image.tryIntoDynamic with
    | .error _ => none
    | .ok dyn => some (imageFromDynamic (dyn.resizeExact newSize.1 newSize.2))

/-! ### Decimal digits (model of `format!` / `str::parse::<u32>`) -/

/-- The ASCII digit character for a digit value `< 10`. -/
def digitChar : Nat → Char
  | 0 => '0' | 1 => '1' | 2 => '2' | 3 => '3' | 4 => '4'
  | 5 => '5' | 6 => '6' | 7 => '7' | 8 => '8' | 9 => '9'
  | _ => '0'

/-- Decimal digits of `n`, most significant first; the fuel argument bounds
the recursion depth (`n` itself always suffices). -/
def natDigitsGo : Nat → Nat → List Char
  | 0, n => [digitChar n]
  | fuel + 1, n =>
    if n < 10 then [digitChar n]
    else natDigitsGo fuel (n / 10) ++ [digitChar (n % 10)]

/-- Decimal rendering of a natural number, as `format!("{}", n)` produces
it: most significant digit first, `"0"` for zero. -/
def natDigits (n : Nat) : List Char := natDigitsGo n n

/-- `char::is_ascii_digit`. -/
def isAsciiDigit (c : Char) : Bool := '0' ≤ c ∧ c ≤ '9'

/-- Accumulate the value of a list of ASCII digit characters. -/
def parseDigitsVal (s : List Char) : Nat :=
  s.foldl (fun a c => 10 * a + (c.toNat - 48)) 0

/-- An optional single leading `+` sign, accepted by `str::parse::<u32>`. -/
def stripLeadingPlus : List Char → List Char
  | '+' :: rest => rest
  | s => s

/-- `str::parse::<u32>`: an optional `+` sign followed by one or more ASCII
digits whose value fits in a `u32`. -/
def parseU32 (s : List Char) : Option Nat :=
  let ds := stripLeadingPlus s
  if ds ≠ [] ∧ ds.all isAsciiDigit then
    let v := parseDigitsVal ds
    if v < 2 ^ 32 then some v else none
  else none

/-! ### Substring splitting (model of `str::rfind` / `str::find`) -/

/-- Split a string at the last occurrence of `c`: returns the parts before
and after it (`c` does not occur in the `after` part), or `none` when `c`
does not occur.  Models indexing by `rfind`. -/
def splitAtLastOcc (c : Char) : List Char → Option (List Char × List Char)
  | [] => none
  | a :: rest =>
    match splitAtLastOcc c rest with
    | some (before, after) => some (a :: before, after)
    | none => if a = c then some ([], rest) else none

/-- Split a string at the first occurrence of `c` (`c` does not occur in
the `before` part).  Models indexing by `find`. -/
def splitAtFirstOcc (c : Char) : List Char → Option (List Char × List Char)
  | [] => none
  | a :: rest =>
    if a = c then some ([], rest)
    else
      match splitAtFirstOcc c rest with
      | some (before, after) => some (a :: before, after)
      | none => none

/-! ### Unix path strings (model of `std::path::Path`) -/

/-- Drop trailing `/` characters. -/
def stripTrailingSlashes (s : List Char) : List Char :=
  (s.reverse.dropWhile (fun c => c = '/')).reverse

/-- Rust `Path::file_name` on a Unix-style path string: the component after
the last `/` (trailing slashes ignored), unless it is empty, `.` or `..`
(in which case there is no file name). -/
def fileNameOf (s : List Char) : Option (List Char) :=
  let t := stripTrailingSlashes s
  let f := match splitAtLastOcc '/' t with
    | some (_, after) => after
    | none => t
  if f = [] ∨ f = ['.'] ∨ f = ['.', '.'] then none else some f

/-- Rust `Path::parent` on a Unix-style path string: the path without its
final component, `none` for an empty or root path. -/
def parentOf (s : List Char) : Option (List Char) :=
  let t := stripTrailingSlashes s
  if t = [] then none
  else
    match splitAtLastOcc '/' t with
    | none => some []
    | some (before, _) =>
      if before = [] then some ['/']
      else
        let b := stripTrailingSlashes before
        if b = [] then some ['/'] else some b

/-- Rust `Path::join` with a relative file-name component. -/
def joinPath (p f : List Char) : List Char :=
  if p = [] then f
  else if p.getLast? = some '/' then p ++ f
  else p ++ '/' :: f

/-- A canonical asset path: it has a normal file name and `parentOf` /
`fileNameOf` / `joinPath` rebuild it exactly (no duplicate or trailing
slashes, no `.` components). -/
def goodPath (p : List Char) : Bool :=
  match fileNameOf p, parentOf p with
  | some f, some d => p = joinPath d f
  | _, _ => false

/-! ### Cache keys (`preview/cache.rs`) -/

/-- The file name with the `_{res}x{res}` marker inserted before the
extension when one exists (`cache_path_for_resolution` formats
`"{stem}_{res}x{res}{ext}"` in the `rfind('.')` branch and
`"{name}_{res}x{res}"` otherwise). -/
def newFileNameForResolution (fileName : List Char) (resolution : Nat) : List Char :=
  match splitAtLastOcc '.' fileName with
  | some (nameWithoutExt, extTail) =>
    nameWithoutExt ++ '_' :: natDigits resolution ++ 'x' :: natDigits resolution
      ++ '.' :: extTail
  | none =>
    fileName ++ '_' :: natDigits resolution ++ 'x' :: natDigits resolution

/-- `PreviewCache::cache_path_for_resolution`: derive the cache key for a
path and resolution.  When the path has a file name, the marker goes into
the file name and the parent is re-attached (both filename branches of the
source join with the parent in the same way); otherwise the marker is
appended to the whole path string. -/
def cachePathForResolution (path : List Char) (resolution : Nat) : List Char :=
  match fileNameOf path with
  | some fileName =>
    let newFileName := newFileNameForResolution fileName resolution
    match parentOf path with
    | some parent => joinPath parent newFileName
    | none => newFileName
  | none =>
    path ++ '_' :: natDigits resolution ++ 'x' :: natDigits resolution

/-- `PreviewCache::parse_resolution_suffix`: parses `"{w}x{h}"`, requiring
`w == h` and an all-digit height string. -/
def parseResolutionSuffix (suffix : List Char) : Option Nat :=
  match splitAtFirstOcc 'x' suffix with
  | some (widthStr, heightStr) =>
    match parseU32 widthStr, parseU32 heightStr with
    | some width, some height =>
      if width = height ∧ heightStr.all isAsciiDigit then some width else none
    | _, _ => none
  | none => none

/-- `PreviewCache::extract_resolution_from_filename`. -/
def extractResolutionFromFilename (fileName : List Char) : Option (List Char × Nat) :=
  match splitAtLastOcc '.' fileName with
  | some (nameWithoutExt, extTail) =>
    match splitAtLastOcc '_' nameWithoutExt with
    | some (before, suffix) =>
      match parseResolutionSuffix suffix with
      | some resolution => some (before ++ '.' :: extTail, resolution)
      | none => none
    | none => none
  | none =>
    match splitAtLastOcc '_' fileName with
    | some (before, suffix) =>
      match parseResolutionSuffix suffix with
      | some resolution => some (before, resolution)
      | none => none
    | none => none

/-- `PreviewCache::parse_cache_path`: recover the original path and the
resolution from a cache key. -/
def parseCachePath (path : List Char) : Option (List Char × Nat) :=
  match fileNameOf path with
  | none => none
  | some fileName =>
    match extractResolutionFromFilename fileName with
    | none => none
    | some (origName, resolution) =>
      let originalPath :=
        match parentOf path with
        | some parent => joinPath parent origName
        | none => origName
      some (originalPath, resolution)

/-! ### The preview cache (`preview/cache.rs`) -/

/-- `PreviewCacheEntry`: the preview image handle, the source asset
identity, the resolution and the timestamp. -/
structure PreviewCacheEntryM : Type where
  imageHandle : Nat
  assetId : Nat
  resolution : Nat
  timestamp : Nat
deriving DecidableEq, Repr

/-- `PreviewCache`: the path-keyed index and the identity-to-paths reverse
index. -/
structure PreviewCacheM : Type where
  pathCache : List (List Char × PreviewCacheEntryM)
  idToPaths : List (Nat × List (List Char))
deriving DecidableEq, Repr

/-- `PreviewCache::new` / `Default::default`. -/
def PreviewCacheM.empty : PreviewCacheM := ⟨[], []⟩

/-- The scan inside `find_highest_resolution_for_path`: walk the path index
keeping the entry with the highest parsed resolution among keys that parse
back to `p`. -/
def findHighestAux (p : List Char) :
    List (List Char × PreviewCacheEntryM) →
    Option PreviewCacheEntryM × Nat → Option PreviewCacheEntryM × Nat
  | [], acc => acc
  | (cachePath, entry) :: rest, (best, bestRes) =>
    match parseCachePath cachePath with
    | some (originalPath, res) =>
      if originalPath = p ∧ res > bestRes then
        findHighestAux p rest (some entry, res)
      else
        findHighestAux p rest (best, bestRes)
    | none => findHighestAux p rest (best, bestRes)

/-- `PreviewCache::find_highest_resolution_for_path`. -/
def PreviewCacheM.findHighestResolutionForPath (c : PreviewCacheM)
    (p : List Char) : Option PreviewCacheEntryM :=
  (findHighestAux p c.pathCache (none, 0)).1

/-- `PreviewCache::get_by_path`: exact lookup for `some res`, otherwise the
highest-resolution entry for the path. -/
def PreviewCacheM.getByPath (c : PreviewCacheM) (path : List Char)
    (resolution : Option Nat) : Option PreviewCacheEntryM :=
  match resolution with
  | some res => alLookup (cachePathForResolution path res) c.pathCache
  | none => c.findHighestResolutionForPath path

/-- The exact-resolution loop of `get_by_id`. -/
def PreviewCacheM.getByIdExact (c : PreviewCacheM) :
    List (List Char) → Nat → Option PreviewCacheEntryM
  | [], _ => none
  | path :: rest, res =>
    match alLookup path c.pathCache with
    | some entry =>
      if entry.resolution = res then some entry else c.getByIdExact rest res
    | none => c.getByIdExact rest res

/-- The best-resolution loop of `get_by_id` (compares by the entry's stored
resolution). -/
def PreviewCacheM.getByIdBest (c : PreviewCacheM) :
    List (List Char) → Option PreviewCacheEntryM × Nat →
    Option PreviewCacheEntryM × Nat
  | [], acc => acc
  | path :: rest, (best, bestRes) =>
    match alLookup path c.pathCache with
    | some entry =>
      if entry.resolution > bestRes then
        c.getByIdBest rest (some entry, entry.resolution)
      else c.getByIdBest rest (best, bestRes)
    | none => c.getByIdBest rest (best, bestRes)

/-- `PreviewCache::get_by_id`. -/
def PreviewCacheM.getById (c : PreviewCacheM) (assetId : Nat)
    (resolution : Option Nat) : Option PreviewCacheEntryM :=
  match alLookup assetId c.idToPaths with
  | none => none
  | some paths =>
    match resolution with
    | some res => c.getByIdExact paths res
    | none => (c.getByIdBest paths (none, 0)).1

/-- `PreviewCache::insert`: store the entry under the derived cache key and
register the key in the identity's path list, deduplicating. -/
def PreviewCacheM.insert (c : PreviewCacheM) (path : List Char) (assetId : Nat)
    (resolution : Nat) (imageHandle : Nat) (timestamp : Nat) : PreviewCacheM :=
  let cachePath := cachePathForResolution path resolution
  let entry : PreviewCacheEntryM := ⟨imageHandle, assetId, resolution, timestamp⟩
  let pathCache := alUpdate cachePath entry c.pathCache
  let paths := (alLookup assetId c.idToPaths).getD []
  let idToPaths :=
    if cachePath ∈ paths then alUpdate assetId paths c.idToPaths
    else alUpdate assetId (paths ++ [cachePath]) c.idToPaths
  ⟨pathCache, idToPaths⟩

/-- `PreviewCache::remove_path_from_id_mapping`: detach one cache key from
an identity's path list, pruning the identity when the list empties. -/
def PreviewCacheM.removePathFromIdMapping (c : PreviewCacheM) (assetId : Nat)
    (cachePath : List Char) : PreviewCacheM :=
  match alLookup assetId c.idToPaths with
  | none => c
  | some paths =>
    let kept := paths.filter (fun p => p ≠ cachePath)
    if kept = [] then ⟨c.pathCache, alRemove assetId c.idToPaths⟩
    else ⟨c.pathCache, alUpdate assetId kept c.idToPaths⟩

/-- Does a cache key parse back to the given original path?  (The filter
condition of `remove_all_resolutions_for_path`; `cleanup_id_mapping`
retains exactly the keys for which this is false.) -/
def parseMatchesPath (cachePath p : List Char) : Bool :=
  match parseCachePath cachePath with
  | some (originalPath, _) => originalPath = p
  | none => false

/-- The keys retained by `cleanup_id_mapping`: those that do not parse back
to `original_path` (keys that fail to parse are retained). -/
def cleanupKept (originalPath : List Char) (paths : List (List Char)) :
    List (List Char) :=
  paths.filter (fun cachePath =>
    match parseCachePath cachePath with
    | some (parsedPath, _) => parsedPath ≠ originalPath
    | none => true)

/-- The effect of `cleanup_id_mapping` on one identity's path list. -/
def cleanupVal (originalPath : List Char) :
    Option (List (List Char)) → Option (List (List Char))
  | none => none
  | some paths =>
    if cleanupKept originalPath paths = [] then none
    else some (cleanupKept originalPath paths)

/-- `PreviewCache::cleanup_id_mapping`: drop from an identity's path list
every cache key that parses back to `original_path`, pruning the identity
when the list empties. -/
def PreviewCacheM.cleanupIdMapping (c : PreviewCacheM) (assetId : Nat)
    (originalPath : List Char) : PreviewCacheM :=
  match alLookup assetId c.idToPaths with
  | none => c
  | some paths =>
    let kept := cleanupKept originalPath paths
    if kept = [] then ⟨c.pathCache, alRemove assetId c.idToPaths⟩
    else ⟨c.pathCache, alUpdate assetId kept c.idToPaths⟩

/-- The removal loop of `remove_all_resolutions_for_path`: remove the
collected keys from the path index, collecting the removed entries' asset
ids (in order) and the first removed entry. -/
def removeCollect : List (List Char) →
    List (List Char × PreviewCacheEntryM) →
    List (List Char × PreviewCacheEntryM) × List Nat × Option PreviewCacheEntryM
  | [], m => (m, [], none)
  | k :: ks, m =>
    match alLookup k m with
    | some entry =>
      let rest := removeCollect ks (alRemove k m)
      (rest.1, entry.assetId :: rest.2.1, some entry)
    | none => removeCollect ks m

/-- `PreviewCache::remove_all_resolutions_for_path`: collect the keys whose
parse matches the path, remove them, then clean up the affected identity
mappings. -/
def PreviewCacheM.removeAllResolutionsForPath (c : PreviewCacheM)
    (path : List Char) : PreviewCacheM × Option PreviewCacheEntryM :=
  let cachePaths := (c.pathCache.filter (fun kv => parseMatchesPath kv.1 path)).map
    Prod.fst
  let res := removeCollect cachePaths c.pathCache
  let c1 : PreviewCacheM := ⟨res.1, c.idToPaths⟩
  let c2 := res.2.1.foldl (fun cc assetId => cc.cleanupIdMapping assetId path) c1
  (c2, res.2.2)

/-- `PreviewCache::remove_by_path`. -/
def PreviewCacheM.removeByPath (c : PreviewCacheM) (path : List Char)
    (resolution : Option Nat) : PreviewCacheM × Option PreviewCacheEntryM :=
  match resolution with
  | some res =>
    let cachePath := cachePathForResolution path res
    match alLookup cachePath c.pathCache with
    | some entry =>
      let c1 : PreviewCacheM := ⟨alRemove cachePath c.pathCache, c.idToPaths⟩
      (c1.removePathFromIdMapping entry.assetId cachePath, some entry)
    | none => (c, none)
  | none => c.removeAllResolutionsForPath path

/-- The exact-resolution loop of `remove_by_id`: remove the first listed
path whose entry has the requested resolution. -/
def PreviewCacheM.removeByIdExact (c : PreviewCacheM) (assetId : Nat) :
    List (List Char) → Nat → PreviewCacheM × Option PreviewCacheEntryM
  | [], _ => (c, none)
  | path :: rest, res =>
    match alLookup path c.pathCache with
    | some entry =>
      if entry.resolution = res then
        let c1 : PreviewCacheM := ⟨alRemove path c.pathCache, c.idToPaths⟩
        (c1.removePathFromIdMapping assetId path, some entry)
      else c.removeByIdExact assetId rest res
    | none => c.removeByIdExact assetId rest res

/-- The all-resolutions loop of `remove_by_id`: remove every listed path
from the path index, returning the first removed entry. -/
def removeAllKeys : List (List Char) →
    List (List Char × PreviewCacheEntryM) →
    List (List Char × PreviewCacheEntryM) × Option PreviewCacheEntryM
  | [], m => (m, none)
  | k :: ks, m =>
    match alLookup k m with
    | some entry =>
      let rest := removeAllKeys ks (alRemove k m)
      (rest.1, some entry)
    | none => removeAllKeys ks m

/-- `PreviewCache::remove_by_id`. -/
def PreviewCacheM.removeById (c : PreviewCacheM) (assetId : Nat)
    (resolution : Option Nat) : PreviewCacheM × Option PreviewCacheEntryM :=
  match alLookup assetId c.idToPaths with
  | none => (c, none)
  | some paths =>
    match resolution with
    | some res => c.removeByIdExact assetId paths res
    | none =>
      let res := removeAllKeys paths c.pathCache
      (⟨res.1, alRemove assetId c.idToPaths⟩, res.2)

/-- `PreviewCache::len`. -/
def PreviewCacheM.len (c : PreviewCacheM) : Nat := c.pathCache.length

/-- The cache operations that claims C3 and C4 range over.  The asset
identity used by an insert is determined by the path through the ambient
`idFn` (the asset system's identity for a path — `load` is idempotent, so
the same path always yields the same identity). -/
inductive CacheOpM : Type
  | insert (path : List Char) (resolution imageHandle timestamp : Nat)
  | removeByPath (path : List Char) (resolution : Option Nat)
  | removeById (assetId : Nat) (resolution : Option Nat)

/-- An operation is good when any inserted path is canonical with a normal
file name and the resolution is a positive `u32`. -/
def CacheOpM.good : CacheOpM → Bool
  | .insert path res _ _ =>
    goodPath path && decide (0 < res) && decide (res < 2 ^ 32)
  | .removeByPath _ _ => true
  | .removeById _ _ => true

/-- One cache operation. -/
def cacheStep (idFn : List Char → Nat) (c : PreviewCacheM) : CacheOpM → PreviewCacheM
  | .insert path res img t => c.insert path (idFn path) res img t
  | .removeByPath path res => (c.removeByPath path res).1
  | .removeById assetId res => (c.removeById assetId res).1

/-- Run a sequence of cache operations from the empty cache. -/
def runCacheOps (idFn : List Char → Nat) (ops : List CacheOpM) : PreviewCacheM :=
  ops.foldl (cacheStep idFn) PreviewCacheM.empty

/-- The two indexes are strict mirrors: every key of the path index is
listed under exactly its entry's asset identity in the reverse index, and
every cache path listed under an identity is a key of the path index whose
entry carries that identity. -/
def cacheMirror (c : PreviewCacheM) : Prop :=
  (∀ k e, alLookup k c.pathCache = some e →
    ∃ l, alLookup e.assetId c.idToPaths = some l ∧ k ∈ l) ∧
  (∀ i l, alLookup i c.idToPaths = some l →
    ∀ k ∈ l, ∃ e, alLookup k c.pathCache = some e ∧ e.assetId = i)

/-- Provenance: every key of the path index is the cache key of some good
path and positive `u32` resolution, and its entry's identity and resolution
fields agree with that provenance. -/
def cacheProv (idFn : List Char → Nat) (c : PreviewCacheM) : Prop :=
  ∀ k e, alLookup k c.pathCache = some e →
    ∃ p r, goodPath p = true ∧ 0 < r ∧ r < 2 ^ 32 ∧
      k = cachePathForResolution p r ∧ e.assetId = idFn p ∧ e.resolution = r

/-- The full invariant carried through cache operation sequences. -/
def cacheWF (idFn : List Char → Nat) (c : PreviewCacheM) : Prop :=
  cacheMirror c ∧ cacheProv idFn c ∧
    (alKeys c.pathCache).Nodup ∧ (alKeys c.idToPaths).Nodup

/-- A concrete identity assignment for the claim examples. -/
def idFn64 : List Char → Nat := fun p => p.length

/-- The concrete asset path `a.png`. -/
def aPng : List Char := ['a', '.', 'p', 'n', 'g']

/-- The concrete asset path `..` (no file-name component). -/
def ddot : List Char := ['.', '.']

/-- Insert `a.png` at resolution 64, then at resolution 256. -/
def ops64_256 : List CacheOpM :=
  [.insert aPng 64 7 1, .insert aPng 256 9 2]

/-- An injective identity assignment for the claim witnesses: a pairing
encoding of character lists. -/
def encChars : List Char → Nat
  | [] => 0
  | c :: rest => Nat.pair c.toNat (encChars rest) + 1

/-- `PreviewRequestType` (preview module). -/
inductive PreviewRequestTypeM : Type
  | image2D
  | scene3D
deriving DecidableEq, Repr

/-- `PreviewMode` (preview module). -/
inductive PreviewModeM : Type
  | image
  | scene
deriving DecidableEq, Repr

/-- `PreviewReady` event (preview/task.rs): task id, asset path, preview
image handle. -/
structure PreviewReadyM : Type where
  taskId : Nat
  path : List Char
  imageHandle : Nat
deriving DecidableEq, Repr

/-- `PendingPreviewRequest` component (preview/task.rs). -/
structure PendingPreviewRequestM : Type where
  taskId : Nat
  path : List Char
  requestType : PreviewRequestTypeM
  mode : PreviewModeM
deriving DecidableEq, Repr

/-- `PreviewTaskManager` (preview/task.rs): the next task id and the
task-id-to-entity map. -/
structure PreviewTaskManagerM : Type where
  nextTaskId : Nat
  taskToEntity : List (Nat × Nat)
deriving DecidableEq, Repr

/-- `PreviewTaskManager::create_task_id`. -/
def PreviewTaskManagerM.createTaskId (m : PreviewTaskManagerM) :
    Nat × PreviewTaskManagerM :=
  (m.nextTaskId, ⟨m.nextTaskId + 1, m.taskToEntity⟩)

/-- `PreviewTaskManager::register_task`. -/
def PreviewTaskManagerM.registerTask (m : PreviewTaskManagerM)
    (taskId entity : Nat) : PreviewTaskManagerM :=
  ⟨m.nextTaskId, alUpdate taskId entity m.taskToEntity⟩

/-- `Assets<Image>`: a handle-indexed store; `add` allocates the next
handle. -/
structure ImageAssetsM : Type where
  nextHandle : Nat
  store : List (Nat × ImageM)
deriving DecidableEq, Repr

/-- `Assets::add`. -/
def ImageAssetsM.add (a : ImageAssetsM) (img : ImageM) : Nat × ImageAssetsM :=
  (a.nextHandle, ⟨a.nextHandle + 1, alUpdate a.nextHandle img a.store⟩)

/-- `Assets::get`. -/
def ImageAssetsM.get (a : ImageAssetsM) (h : Nat) : Option ImageM :=
  alLookup h a.store

/-- `generate_previews_for_resolutions` (preview/image.rs): for each
configured resolution not yet cached for the path, resize (adding the
resized image to the asset store) or fall back to the original handle, and
insert the preview into the cache. -/
def generatePreviewsForResolutions (images : ImageAssetsM)
    (originalImage : ImageM) (originalHandle : Nat) (path : List Char)
    (assetId : Nat) (resolutions : List Nat) (cache : PreviewCacheM)
    (timestamp : Nat) : ImageAssetsM × PreviewCacheM :=
  resolutions.foldl (fun (acc : ImageAssetsM × PreviewCacheM) resolution =>
    if (acc.2.getByPath path (some resolution)).isSome then acc
    else
      match resizeImageForPreview originalImage resolution with
      | some compressed =>
        let added := acc.1.add compressed
        (added.2, acc.2.insert path assetId resolution added.1 timestamp)
      | none =>
        (acc.1, acc.2.insert path assetId resolution originalHandle timestamp))
    (images, cache)

/-- The world `request_image_preview` runs against: the task manager, the
preview cache, the configured resolutions, the image asset store, the
pending-request entities, the entity allocator, the elapsed time, the
crate's asset loader (untouched by this system) and the emitted
`PreviewReady` events. -/
structure PWorldM : Type where
  taskManager : PreviewTaskManagerM
  cache : PreviewCacheM
  config : List Nat
  images : ImageAssetsM
  pending : List (Nat × PendingPreviewRequestM)
  nextEntity : Nat
  time : Nat
  loader : AssetLoaderM
  readyEvents : List PreviewReadyM

/-- `request_image_preview` (preview/image.rs).  `loadFn` models
`AssetServer::load`, which resolves a path to its handle idempotently; the
handle's untyped asset id is the handle itself in this model. -/
def requestImagePreview (loadFn : List Char → Nat) (w : PWorldM)
    (path : List Char) (resolution : Option Nat) : Nat × PWorldM :=
  match w.cache.getByPath path resolution with
  | some cacheEntry =>
    let idtm := w.taskManager.createTaskId
    (idtm.1, { w with
      taskManager := idtm.2,
      readyEvents := w.readyEvents ++ [⟨idtm.1, path, cacheEntry.imageHandle⟩] })
  | none =>
    let idtm := w.taskManager.createTaskId
    let handle := loadFn path
    match w.images.get handle with
    | some image =>
      let ic := generatePreviewsForResolutions w.images image handle path
        handle w.config w.cache w.time
      let previewHandle :=
        match ic.2.getByPath path resolution with
        | some entry => entry.imageHandle
        | none => handle
      (idtm.1, { w with
        taskManager := idtm.2,
        images := ic.1,
        cache := ic.2,
        readyEvents := w.readyEvents ++ [⟨idtm.1, path, previewHandle⟩] })
    | none =>
      let entity := w.nextEntity
      (idtm.1, { w with
        taskManager := idtm.2.registerTask idtm.1 entity,
        pending := w.pending ++ [(entity, ⟨idtm.1, path, .image2D, .image⟩)],
        nextEntity := w.nextEntity + 1 })

/-! ### Saving (`asset/saver.rs`, `asset/error.rs`) -/

/-- `AssetError` (asset/error.rs). -/
inductive AssetErrorM : Type
  | imageNotFound (handle : Nat)
  | imageConversionFailed (reason : List Char)
  | imageEncodeFailed (format reason : List Char)
  | directoryCreationFailed (path reason : List Char)
  | fileWriteFailed (path reason : List Char)
  | assetLoadFailed (path reason : List Char)
  | assetRemoved (path : List Char)
  | ioError (reason : List Char)
  | assetWriter (reason : List Char)
deriving DecidableEq, Repr

/-- Rust `Path::extension`: the part of the file name after its last `.`,
provided the `.` is not the file name's first character. -/
def extensionOf (p : List Char) : Option (List Char) :=
  match fileNameOf p with
  | none => none
  | some f =>
    match splitAtLastOcc '.' f with
    | none => none
    | some (before, after) => if before = [] then none else some after

/-- The string `webp`. -/
def webpChars : List Char := ['w', 'e', 'b', 'p']

/-- The string `WebP` (the format name reported by encode failures). -/
def webPFormat : List Char := ['W', 'e', 'b', 'P']

/-- The writer-side target path of `save_image`: the target path with its
extension forced to `webp` (`set_extension` replaces an existing extension
— which is a suffix of the path — or appends one). -/
def targetPathForWriter (p : List Char) : List Char :=
  match extensionOf p with
  | some e =>
    if e = webpChars then p
    else p.take (p.length - (e.length + 1)) ++ '.' :: webpChars
  | none => p ++ '.' :: webpChars

/-- The writer and encoder effects `save_image` runs against:
`create_directory` and `write_bytes` of the `ErasedAssetWriter`, and the
WebP encoding of the RGBA8 buffer (`write_to`), each returning an error
reason on failure. -/
structure SaveEnvM : Type where
  createDirectory : List Char → Except (List Char) Unit
  writeBytes : List Char → Except (List Char) Unit
  encodeWebP : DynImageM → Except (List Char) Unit

/-- The encode-then-write tail of `save_image`'s async block.  A write
failure reports the original target path, not the writer-side path. -/
def saveImageEncodeWrite (env : SaveEnvM) (rgbaImage : DynImageM)
    (writerPath targetPath : List Char) : Except AssetErrorM Unit :=
  match env.encodeWebP rgbaImage with
  | .error e => .error (.imageEncodeFailed webPFormat e)
  | .ok _ =>
    match env.writeBytes writerPath with
    | .error e => .error (.fileWriteFailed targetPath e)
    | .ok _ => .ok ()

/-- `save_image` (asset/saver.rs): fetch the source pixels, convert to a
dynamic image, then (in the spawned task) create the target directory if
the writer path has a parent, encode to WebP, and write the bytes. -/
def saveImage (env : SaveEnvM) (image : Nat) (targetPath : List Char)
    (images : ImageAssetsM) : Except AssetErrorM Unit :=
  match images.get image with
  | none => .error (.imageNotFound image)
  | some imageData =>
    match imageData.tryIntoDynamic with
    | .error e => .error (.imageConversionFailed e.data)
    | .ok dynamicImage =>
      let writerPath := targetPathForWriter targetPath
      match parentOf writerPath with
      | some parent =>
        match env.createDirectory parent with
        | .error e => .error (.directoryCreationFailed parent e)
        | .ok _ => saveImageEncodeWrite env dynamicImage writerPath targetPath
      | none => saveImageEncodeWrite env dynamicImage writerPath targetPath

/-- Modelled from the spec's words (§4.6/§7), for comparison with
`saveImage`: the same stages in the order the spec states them — fetch,
convert, encode, create directory, write. -/
def saveImageSpecOrder (env : SaveEnvM) (image : Nat) (targetPath : List Char)
    (images : ImageAssetsM) : Except AssetErrorM Unit :=
  match images.get image with
  | none => .error (.imageNotFound image)
  | some imageData =>
    match imageData.tryIntoDynamic with
    | .error e => .error (.imageConversionFailed e.data)
    | .ok dynamicImage =>
      let writerPath := targetPathForWriter targetPath
      match env.encodeWebP dynamicImage with
      | .error e => .error (.imageEncodeFailed webPFormat e)
      | .ok _ =>
        match parentOf writerPath with
        | some parent =>
          match env.createDirectory parent with
          | .error e => .error (.directoryCreationFailed parent e)
          | .ok _ =>
            match env.writeBytes writerPath with
            | .error e => .error (.fileWriteFailed targetPath e)
            | .ok _ => .ok ()
        | none =>
          match env.writeBytes writerPath with
          | .error e => .error (.fileWriteFailed targetPath e)
          | .ok _ => .ok ()

/-- Decidable equality of `Except` results. -/
instance {e a : Type} [DecidableEq e] [DecidableEq a] :
    DecidableEq (Except e a) := fun x y =>
  match x, y with
  | .ok v, .ok w =>
    if h : v = w then .isTrue (by rw [h])
    else .isFalse (by intro hc; cases hc; exact h rfl)
  | .ok _, .error _ => .isFalse (by intro hc; cases hc)
  | .error _, .ok _ => .isFalse (by intro hc; cases hc)
  | .error v, .error w =>
    if h : v = w then .isTrue (by rw [h])
    else .isFalse (by intro hc; cases hc; exact h rfl)

/-- `SaveCompleted` event (asset/saver.rs). -/
structure SaveCompletedM : Type where
  taskId : Nat
  path : List Char
  result : Except AssetErrorM Unit
deriving DecidableEq, Repr

/-- `ActiveSaveTask` component: the `task` field is modelled by its poll
result — `none` while still running, `some r` once finished with `r`. -/
structure ActiveSaveTaskM : Type where
  taskId : Nat
  path : List Char
  targetPath : List Char
  result : Option (Except AssetErrorM Unit)
deriving DecidableEq, Repr

/-- `SaveTaskTracker` (asset/saver.rs). -/
structure SaveTaskTrackerM : Type where
  nextTaskId : Nat
  pendingSaves : List (Nat × List Char)
deriving DecidableEq, Repr

/-- `SaveTaskTracker::mark_completed`. -/
def SaveTaskTrackerM.markCompleted (t : SaveTaskTrackerM) (taskId : Nat) :
    SaveTaskTrackerM :=
  ⟨t.nextTaskId, alRemove taskId t.pendingSaves⟩

/-- `SaveTaskTracker::is_pending`. -/
def SaveTaskTrackerM.isPending (t : SaveTaskTrackerM) (taskId : Nat) : Bool :=
  (alLookup taskId t.pendingSaves).isSome

/-- `monitor_save_completion` (asset/saver.rs): poll every active save
task; for each finished one emit a `SaveCompleted` event carrying the
embedded result, mark it completed in the tracker and despawn its entity.
Returns the tracker, the survivors and the emitted events. -/
def monitorSaveCompletion (tracker : SaveTaskTrackerM)
    (tasks : List (Nat × ActiveSaveTaskM)) :
    SaveTaskTrackerM × List (Nat × ActiveSaveTaskM) × List SaveCompletedM :=
  tasks.foldl (fun acc et =>
    match et.2.result with
    | some r =>
      (acc.1.markCompleted et.2.taskId, acc.2.1,
        acc.2.2 ++ [⟨et.2.taskId, et.2.path, r⟩])
    | none => (acc.1, acc.2.1 ++ [et], acc.2.2))
    (tracker, [], [])

/-- The concrete save target `assets/out.png`. -/
def outPngPath : List Char :=
  ['a', 's', 's', 'e', 't', 's', '/', 'o', 'u', 't', '.', 'p', 'n', 'g']

/-- The directory component `assets` of the concrete save target. -/
def assetsDir : List Char := ['a', 's', 's', 'e', 't', 's']

/-- A save environment in which directory creation and WebP encoding both
fail (writes succeed). -/
def failEnv : SaveEnvM :=
  ⟨fun _ => .error ['d'], fun _ => .ok (), fun _ => .error ['e']⟩

/-- An asset store holding one 4×4 RGBA8 image under handle 0. -/
def oneImage : ImageAssetsM :=
  ⟨1, [(0, ⟨4, 4, TextureFormatM.rgba8UnormSrgb⟩)]⟩

/-! ### Asset event handling (`asset/loader.rs`, `handle_asset_events`) -/

/-- `bevy::asset::LoadState`, as consumed by the fallback poll. -/
inductive LoadStateM : Type
  | notLoaded
  | loading
  | loaded
  | failed (reason : List Char)
deriving DecidableEq, Repr

/-- `AssetEvent<Image>`: the variants `handle_asset_events` matches on
(`other` stands for the wildcard arm). -/
inductive AssetEventM : Type
  | loadedWithDependencies (id : Nat)
  | removed (id : Nat)
  | modified (id : Nat)
  | other
deriving DecidableEq, Repr

/-- `AssetLoadCompleted` event. -/
structure AssetLoadCompletedM : Type where
  taskId : Nat
  path : List Char
  handleId : Nat
  priority : LoadPriority
deriving DecidableEq, Repr

/-- `AssetLoadFailed` event. -/
structure AssetLoadFailedM : Type where
  taskId : Nat
  path : List Char
  error : AssetErrorM
deriving DecidableEq, Repr

/-- `AssetHotReloaded` event. -/
structure AssetHotReloadedM : Type where
  taskId : Nat
  path : List Char
  handleId : Nat
deriving DecidableEq, Repr

/-- The reason string of the fallback poll's failure error. -/
def pollFailReason : List Char :=
  ['A', 's', 's', 'e', 't', ' ', 'l', 'o', 'a', 'd', ' ', 'f', 'a', 'i',
    'l', 'e', 'd']

/-- The running state of `handle_asset_events`: the loader, the entities
whose despawn commands have been queued (despawns are deferred to the
command flush, so the task query keeps seeing them during the run), and
the emitted events. -/
structure HState : Type where
  loader : AssetLoaderM
  despawned : List Nat
  completed : List AssetLoadCompletedM
  failed : List AssetLoadFailedM
  hotReloaded : List AssetHotReloadedM
deriving DecidableEq, Repr

/-- One step of the first loop of `handle_asset_events`: a bevy
`AssetLoadFailedEvent` (handle id and formatted error reason). -/
def hFailedStep (tasks : List (Nat × ActiveLoadTaskM)) (s : HState)
    (ev : Nat × List Char) : HState :=
  match s.loader.getEntityByHandle ev.1 with
  | none => s
  | some entity =>
    match alLookup entity tasks with
    | none => s
    | some activeTask =>
      { s with
        loader := (s.loader.finishTask).cleanupTask activeTask.taskId ev.1,
        despawned := s.despawned ++ [entity],
        failed := s.failed ++ [⟨activeTask.taskId, activeTask.path,
          .assetLoadFailed activeTask.path ev.2⟩] }

/-- One step of the second loop of `handle_asset_events`: an
`AssetEvent<Image>`. -/
def hAssetStep (tasks : List (Nat × ActiveLoadTaskM)) (s : HState)
    (ev : AssetEventM) : HState :=
  match ev with
  | .loadedWithDependencies id =>
    match s.loader.getEntityByHandle id with
    | none => s
    | some entity =>
      match alLookup entity tasks with
      | none => s
      | some t =>
        { s with
          loader := (s.loader.finishTask).cleanupTask t.taskId id,
          despawned := s.despawned ++ [entity],
          completed := s.completed ++ [⟨t.taskId, t.path, t.handleId,
            t.priority⟩] }
  | .removed id =>
    match s.loader.getEntityByHandle id with
    | none => s
    | some entity =>
      match alLookup entity tasks with
      | none => s
      | some t =>
        { s with
          loader := (s.loader.finishTask).cleanupTask t.taskId id,
          despawned := s.despawned ++ [entity],
          failed := s.failed ++ [⟨t.taskId, t.path, .assetRemoved t.path⟩] }
  | .modified id =>
    match s.loader.getEntityByHandle id with
    | none => s
    | some entity =>
      match alLookup entity tasks with
      | none => s
      | some t =>
        { s with
          hotReloaded := s.hotReloaded ++ [⟨t.taskId, t.path, t.handleId⟩] }
  | .other => s

/-- One step of the fallback poll of `handle_asset_events`: an active
task whose load state is checked. -/
def hPollStep (loadState : Nat → LoadStateM) (s : HState)
    (et : Nat × ActiveLoadTaskM) : HState :=
  match loadState et.2.handleId with
  | .failed _ =>
    match s.loader.getEntityByHandle et.2.handleId with
    | none => s
    | some entity =>
      { s with
        loader := (s.loader.finishTask).cleanupTask et.2.taskId
          et.2.handleId,
        despawned := s.despawned ++ [entity],
        failed := s.failed ++ [⟨et.2.taskId, et.2.path,
          .assetLoadFailed et.2.path pollFailReason⟩] }
  | _ => s

/-- The observable outcome of `handle_asset_events`. -/
structure HOut : Type where
  loader : AssetLoaderM
  tasks : List (Nat × ActiveLoadTaskM)
  completed : List AssetLoadCompletedM
  failed : List AssetLoadFailedM
  hotReloaded : List AssetHotReloadedM
deriving DecidableEq, Repr

/-- `handle_asset_events` (asset/loader.rs): process the bevy failed-load
events, then the asset events, then the fallback load-state poll over the
active tasks; despawns apply at the end of the run. -/
def handleAssetEvents (w : LoaderWorld) (failedEvs : List (Nat × List Char))
    (assetEvs : List AssetEventM) (loadState : Nat → LoadStateM) : HOut :=
  let s0 : HState := ⟨w.loader, [], [], [], []⟩
  let s1 := failedEvs.foldl (hFailedStep w.tasks) s0
  let s2 := assetEvs.foldl (hAssetStep w.tasks) s1
  let s3 := w.tasks.foldl (hPollStep loadState) s2
  ⟨s3.loader, w.tasks.filter (fun et => !s3.despawned.contains et.1),
    s3.completed, s3.failed, s3.hotReloaded⟩

/-- A load function sending every path to handle 5 (`AssetServer::load`
returns the same handle for the same path, so two submissions of one path
share a handle). -/
def dupLoadFn : List Char → Nat := fun _ => 5

/-- The world after submitting `a.png` twice and processing the queue:
two in-flight tasks sharing handle 5, with `handle_to_entity` pointing at
the later task's entity only. -/
def dupWorld : LoaderWorld :=
  LoaderWorld.run dupLoadFn 4
    [.submit aPng .currentAccess, .submit aPng .currentAccess, .processQueue]

/-- A single-task world: one submission of `a.png` loaded as handle 9 and
admitted by the queue processor. -/
def oneTaskWorld : LoaderWorld :=
  LoaderWorld.run (fun _ => 9) 4 [.submit aPng .currentAccess, .processQueue]
theorem alLookup_update_self {α β : Type} [DecidableEq α] (k : α) (v : β)
    (l : List (α × β)) : alLookup k (alUpdate k v l) = some v := by
  induction l with
  | nil => simp [alUpdate, alLookup]
  | cons kv rest ih =>
    obtain ⟨k', v'⟩ := kv
    by_cases h : k' = k <;> simp [alUpdate, alLookup, h, ih]

theorem alLookup_update_ne {α β : Type} [DecidableEq α] {k k' : α} (v : β)
    (l : List (α × β)) (h : k' ≠ k) :
    alLookup k' (alUpdate k v l) = alLookup k' l := by
  induction l with
  | nil => simp [alUpdate, alLookup, Ne.symm h]
  | cons kv rest ih =>
    obtain ⟨k₀, v₀⟩ := kv
    by_cases h₀ : k₀ = k
    · subst h₀
      simp [alUpdate, alLookup, Ne.symm h]
    · simp [alUpdate, alLookup, h₀, ih]

theorem alLookup_remove_self {α β : Type} [DecidableEq α] (k : α)
    (l : List (α × β)) : alLookup k (alRemove k l) = none := by
  induction l with
  | nil => simp [alRemove, alLookup]
  | cons kv rest ih =>
    obtain ⟨k', v'⟩ := kv
    by_cases h : k' = k <;> simp [alRemove, alLookup, h, ih]

theorem alLookup_remove_ne {α β : Type} [DecidableEq α] {k k' : α}
    (l : List (α × β)) (h : k' ≠ k) :
    alLookup k' (alRemove k l) = alLookup k' l := by
  induction l with
  | nil => simp [alRemove, alLookup]
  | cons kv rest ih =>
    obtain ⟨k₀, v₀⟩ := kv
    by_cases h₀ : k₀ = k
    · subst h₀
      simp [alRemove, alLookup, Ne.symm h, ih]
    · simp [alRemove, alLookup, h₀, ih]

theorem mem_of_alLookup_eq_some {α β : Type} [DecidableEq α] {k : α} {v : β}
    {l : List (α × β)} (h : alLookup k l = some v) : (k, v) ∈ l := by
  induction l with
  | nil => simp [alLookup] at h
  | cons kv rest ih =>
    obtain ⟨k', v'⟩ := kv
    by_cases h₀ : k' = k
    · subst h₀
      simp [alLookup] at h
      simp [h]
    · simp [alLookup, h₀] at h
      exact List.mem_cons_of_mem _ (ih h)

@[simp] theorem alKeys_nil {α β : Type} : alKeys ([] : List (α × β)) = [] := rfl

@[simp] theorem alKeys_cons {α β : Type} (k : α) (v : β) (l : List (α × β)) :
    alKeys ((k, v) :: l) = k :: alKeys l := rfl

theorem alLookup_eq_some_of_mem {α β : Type} [DecidableEq α] {k : α} {v : β}
    {l : List (α × β)} (hmem : (k, v) ∈ l) (hnd : (alKeys l).Nodup) :
    alLookup k l = some v := by
  induction l with
  | nil => simp at hmem
  | cons kv rest ih =>
    obtain ⟨k', v'⟩ := kv
    rw [alKeys_cons, List.nodup_cons] at hnd
    rcases List.mem_cons.mp hmem with h | h
    · cases h
      simp [alLookup]
    · have hk : k' ≠ k := by
        intro he
        subst he
        exact hnd.1 (List.mem_map_of_mem Prod.fst h)
    
      simp only [alLookup, hk, if_false]
      exact ih h hnd.2

theorem mem_alKeys {α β : Type} {a : α} {l : List (α × β)} :
    a ∈ alKeys l ↔ ∃ v, (a, v) ∈ l := by
  induction l with
  | nil => simp
  | cons kv rest ih =>
    obtain ⟨k', v'⟩ := kv
    simp [ih]
    constructor
    · rintro (h | ⟨v, hv⟩)
      · exact ⟨v', Or.inl (by simp [h])⟩
      · exact ⟨v, Or.inr hv⟩
    · rintro ⟨v, h | hv⟩
      · exact Or.inl h.1
      · exact Or.inr ⟨v, hv⟩

theorem mem_alKeys_update {α β : Type} [DecidableEq α] (k a : α) (v : β)
    (l : List (α × β)) :
    a ∈ alKeys (alUpdate k v l) ↔ a = k ∨ a ∈ alKeys l := by
  induction l with
  | nil => simp [alUpdate]
  | cons kv rest ih =>
    obtain ⟨k', v'⟩ := kv
    by_cases h : k' = k
    · subst h
      simp [alUpdate]
    · simp only [alUpdate, h, if_false, alKeys_cons, List.mem_cons, ih]
      tauto

theorem alKeys_update_nodup {α β : Type} [DecidableEq α] (k : α) (v : β)
    {l : List (α × β)} (hnd : (alKeys l).Nodup) :
    (alKeys (alUpdate k v l)).Nodup := by
  induction l with
  | nil => simp [alUpdate]
  | cons kv rest ih =>
    obtain ⟨k', v'⟩ := kv
    rw [alKeys_cons, List.nodup_cons] at hnd
    by_cases h : k' = k
    · have hu : alUpdate k v ((k', v') :: rest) = (k, v) :: rest := by
        simp [alUpdate, if_pos h]
      rw [hu, alKeys_cons, List.nodup_cons]
      subst h
      exact hnd
    · simp only [alUpdate, h, if_false, alKeys_cons, List.nodup_cons]
      refine ⟨fun hmem => ?_, ih hnd.2⟩
      rcases (mem_alKeys_update k k' v rest).mp hmem with hh | hh
      · exact h hh
      · exact hnd.1 hh

theorem mem_alKeys_remove {α β : Type} [DecidableEq α] (k a : α)
    (l : List (α × β)) :
    a ∈ alKeys (alRemove k l) → a ∈ alKeys l := by
  induction l with
  | nil => simp [alRemove]
  | cons kv rest ih =>
    obtain ⟨k', v'⟩ := kv
    by_cases h : k' = k
    · subst h
      simp only [alRemove, if_pos rfl]
      intro hmem
      simp [ih hmem]
    · simp only [alRemove, h, if_false, alKeys_cons, List.mem_cons]
      rintro (hh | hh)
      · exact Or.inl hh
      · exact Or.inr (ih hh)

theorem alKeys_remove_nodup {α β : Type} [DecidableEq α] (k : α)
    {l : List (α × β)} (hnd : (alKeys l).Nodup) :
    (alKeys (alRemove k l)).Nodup := by
  induction l with
  | nil => simp [alRemove]
  | cons kv rest ih =>
    obtain ⟨k', v'⟩ := kv
    rw [alKeys_cons, List.nodup_cons] at hnd
    by_cases h : k' = k
    · subst h
      simp only [alRemove, if_pos rfl]
      exact ih hnd.2
    · simp only [alRemove, h, if_false, alKeys_cons, List.nodup_cons]
      exact ⟨fun hmem => hnd.1 (mem_alKeys_remove k k' rest hmem), ih hnd.2⟩

theorem LoadTask.cmp_self (a : LoadTask) : LoadTask.cmp a a = .eq := by
  unfold LoadTask.cmp LoadPriority.cmp
  have h1 : compare a.priority.value a.priority.value = Ordering.eq := by
    rw [Nat.compare_eq_eq]
  have h2 : compare a.taskId a.taskId = Ordering.eq := by
    rw [Nat.compare_eq_eq]
  rw [h1]
  exact h2

theorem LoadTask.cmp_eq_gt (a b : LoadTask) :
    LoadTask.cmp a b = .gt ↔
      b.priority.value < a.priority.value ∨
        (a.priority.value = b.priority.value ∧ a.taskId < b.taskId) := by
  unfold LoadTask.cmp LoadPriority.cmp
  rcases h : compare a.priority.value b.priority.value with _ | _ | _
  · rw [Nat.compare_eq_lt] at h
    simp
    omega
  · rw [Nat.compare_eq_eq] at h
    simp [Nat.compare_eq_gt]
    omega
  · rw [Nat.compare_eq_gt] at h
    simp
    omega

theorem LoadTask.cmp_eq_lt (a b : LoadTask) :
    LoadTask.cmp a b = .lt ↔
      a.priority.value < b.priority.value ∨
        (a.priority.value = b.priority.value ∧ b.taskId < a.taskId) := by
  unfold LoadTask.cmp LoadPriority.cmp
  rcases h : compare a.priority.value b.priority.value with _ | _ | _
  · rw [Nat.compare_eq_lt] at h
    simp
    omega
  · rw [Nat.compare_eq_eq] at h
    simp [Nat.compare_eq_lt]
    omega
  · rw [Nat.compare_eq_gt] at h
    simp
    omega

theorem popMax_eq_none {q : List LoadTask} : popMax q = none ↔ q = [] := by
  cases q with
  | nil => simp [popMax]
  | cons t ts =>
    simp only [popMax]
    rcases h : popMax ts with _ | ⟨m, rest⟩
    · simp
    · by_cases hc : LoadTask.cmp t m = .lt <;> simp [hc]

theorem popMax_mem {q : List LoadTask} {m : LoadTask} {rest : List LoadTask}
    (h : popMax q = some (m, rest)) : m ∈ q := by
  induction q generalizing m rest with
  | nil => simp [popMax] at h
  | cons t ts ih =>
    simp only [popMax] at h
    rcases h0 : popMax ts with _ | ⟨m0, rest0⟩ <;> rw [h0] at h <;> dsimp only at h
    · simp at h
      simp [h.1]
    · by_cases hc : LoadTask.cmp t m0 = .lt
      · rw [if_pos hc] at h
        simp at h
        exact List.mem_cons_of_mem _ (ih (h.1 ▸ h0))
      · rw [if_neg hc] at h
        simp at h
        simp [h.1]

theorem popMax_is_max {q : List LoadTask} {m : LoadTask} {rest : List LoadTask}
    (h : popMax q = some (m, rest)) : ∀ u ∈ q, LoadTask.cmp u m ≠ .gt := by
  induction q generalizing m rest with
  | nil => simp [popMax] at h
  | cons t ts ih =>
    simp only [popMax] at h
    rcases h0 : popMax ts with _ | ⟨m0, rest0⟩ <;> rw [h0] at h <;> dsimp only at h
    · have hts : ts = [] := popMax_eq_none.mp h0
      simp at h
      subst hts
      intro u hu
      simp at hu
      subst hu
      rw [h.1, LoadTask.cmp_self]
      simp
    · by_cases hc : LoadTask.cmp t m0 = .lt
      · rw [if_pos hc] at h
        simp at h
        obtain ⟨hm, _⟩ := h
        subst hm
        intro u hu
        rcases List.mem_cons.mp hu with hu | hu
        · subst hu
          rw [hc]
          simp
        · exact ih h0 u hu
      · rw [if_neg hc] at h
        simp at h
        obtain ⟨hm, _⟩ := h
        subst hm
        intro u hu
        rcases List.mem_cons.mp hu with hu | hu
        · subst hu
          rw [LoadTask.cmp_self]
          simp
        · have hum0 : LoadTask.cmp u m0 ≠ .gt := ih h0 u hu
          intro hgt
          rw [LoadTask.cmp_eq_gt] at hgt
          rw [LoadTask.cmp_eq_lt] at hc
          have h1 := (LoadTask.cmp_eq_gt u m0).not.mp hum0
          push_neg at h1
          omega

theorem popMax_length {q : List LoadTask} {m : LoadTask} {rest : List LoadTask}
    (h : popMax q = some (m, rest)) : rest.length < q.length := by
  induction q generalizing m rest with
  | nil => simp [popMax] at h
  | cons t ts ih =>
    simp only [popMax] at h
    rcases h0 : popMax ts with _ | ⟨m0, rest0⟩ <;> rw [h0] at h <;> dsimp only at h
    · simp at h
      simp [h.2]
    · by_cases hc : LoadTask.cmp t m0 = .lt
      · rw [if_pos hc] at h
        simp at h
        have := ih (h.1 ▸ h0)
        simp [← h.2]
        omega
      · rw [if_neg hc] at h
        simp at h
        simp [← h.2]

theorem processLoadQueueGo_invariant (loadFn : List Char → Nat) :
    ∀ (fuel : Nat) (w : LoaderWorld),
      w.loader.activeTasks ≤ w.loader.maxConcurrent →
      (processLoadQueueGo loadFn fuel w).loader.activeTasks ≤
          (processLoadQueueGo loadFn fuel w).loader.maxConcurrent ∧
        (processLoadQueueGo loadFn fuel w).loader.maxConcurrent =
          w.loader.maxConcurrent := by
  intro fuel
  induction fuel with
  | zero =>
    intro w h
    exact ⟨h, rfl⟩
  | succ fuel ih =>
    intro w h
    simp only [processLoadQueueGo]
    by_cases hc : w.loader.canStartTask
    · rcases hp : popMax w.loader.queue with _ | ⟨task, rest⟩
      · simp [hc, hp, h]
      · have hlt : w.loader.activeTasks < w.loader.maxConcurrent := by
          simpa [AssetLoaderM.canStartTask] using hc
        simp only [hc, if_true, hp]
        obtain ⟨h1, h2⟩ := ih
          ⟨(AssetLoaderM.startTask { w.loader with queue := rest }).registerTask
              task.taskId w.nextEntity
              (AssetLoaderM.spawnLoadTask task loadFn).handleId,
            w.nextEntity + 1,
            w.tasks ++ [(w.nextEntity, AssetLoaderM.spawnLoadTask task loadFn)]⟩
          (by simp [AssetLoaderM.registerTask, AssetLoaderM.startTask]; omega)
        refine ⟨h1, ?_⟩
        rw [h2]
        simp [AssetLoaderM.registerTask, AssetLoaderM.startTask]
    · simp [hc, h]

theorem processLoadQueue_invariant (loadFn : List Char → Nat) (w : LoaderWorld)
    (h : w.loader.activeTasks ≤ w.loader.maxConcurrent) :
    (processLoadQueue loadFn w).loader.activeTasks ≤
        (processLoadQueue loadFn w).loader.maxConcurrent ∧
      (processLoadQueue loadFn w).loader.maxConcurrent = w.loader.maxConcurrent := by
  unfold processLoadQueue
  exact processLoadQueueGo_invariant loadFn _ w h

/-- C1: every `pop_next` returns, among the queued tasks, one with the highest
priority and, among equal-priority tasks, the smallest task id (strict FIFO
within a priority); in particular submitting
`[Preload(a), CurrentAccess(b), HotReload(c), Preload(d), CurrentAccess(e)]`
and popping five times yields exactly `[b, e, c, a, d]`
(task ids `[1, 4, 2, 0, 3]`). -/
theorem pop_next_priority_fifo :
    (∀ (q : List LoadTask) (m : LoadTask) (rest : List LoadTask),
        popMax q = some (m, rest) →
        m ∈ q ∧ ∀ u ∈ q,
          u.priority.value < m.priority.value ∨
            (u.priority.value = m.priority.value ∧ m.taskId ≤ u.taskId)) ∧
    (popAllTasks 5 c1Loader.queue).map (fun t => (t.path, t.taskId)) =
      [("b.png".data, 1), ("e.png".data, 4), ("c.png".data, 2),
        ("a.png".data, 0), ("d.png".data, 3)] := by
  constructor
  · intro q m rest h
    refine ⟨popMax_mem h, fun u hu => ?_⟩
    have hne := popMax_is_max h u hu
    simp only [ne_eq, LoadTask.cmp_eq_gt] at hne
    push_neg at hne
    omega
  · decide

/-- Witness for C1: the general part instantiated at the concrete queue of
the five submissions; the first pop returns task `b` (id 1, CurrentAccess). -/
theorem pop_next_priority_fifo_witness :
    (⟨"b.png".data, .currentAccess, 1⟩ : LoadTask) ∈ c1Loader.queue ∧
      ∀ u ∈ c1Loader.queue,
        u.priority.value < (LoadPriority.currentAccess).value ∨
          (u.priority.value = (LoadPriority.currentAccess).value ∧ 1 ≤ u.taskId) :=
  pop_next_priority_fifo.1 c1Loader.queue ⟨"b.png".data, .currentAccess, 1⟩
    [⟨"a.png".data, .preload, 0⟩, ⟨"c.png".data, .hotReload, 2⟩,
      ⟨"d.png".data, .preload, 3⟩, ⟨"e.png".data, .currentAccess, 4⟩]
    (by decide)

/-- C2: over any sequence of `submit`, `process_load_queue` and `finish_task`
operations from a fresh loader, `active_tasks` never exceeds
`max_concurrent`; and `finish_task` on a loader with zero active tasks
leaves the counter at zero (no underflow on duplicate completion signals). -/
theorem active_tasks_bounded :
    (∀ (loadFn : List Char → Nat) (maxConcurrent : Nat) (ops : List LoaderOpM),
        (LoaderWorld.run loadFn maxConcurrent ops).loader.activeTasks ≤ maxConcurrent) ∧
    (∀ s : AssetLoaderM, s.activeTasks = 0 → s.finishTask.activeTasks = 0) := by
  constructor
  · intro loadFn maxConcurrent ops
    have key : ∀ (ops : List LoaderOpM) (w : LoaderWorld),
        w.loader.activeTasks ≤ w.loader.maxConcurrent →
        w.loader.maxConcurrent = maxConcurrent →
        (ops.foldl (LoaderWorld.step loadFn) w).loader.activeTasks ≤
            (ops.foldl (LoaderWorld.step loadFn) w).loader.maxConcurrent ∧
          (ops.foldl (LoaderWorld.step loadFn) w).loader.maxConcurrent = maxConcurrent := by
      intro ops
      induction ops with
      | nil => exact fun w h hm => ⟨h, hm⟩
      | cons op rest ih =>
        intro w h hm
        rcases op with ⟨p, pr⟩ | _ | _
        · exact ih _ (by simpa [LoaderWorld.step, AssetLoaderM.submit] using h)
            (by simpa [LoaderWorld.step, AssetLoaderM.submit] using hm)
        · have hinv := processLoadQueue_invariant loadFn w h
          exact ih _ hinv.1 (hinv.2.trans hm)
        · have hmax : w.loader.finishTask.maxConcurrent = w.loader.maxConcurrent := by
            unfold AssetLoaderM.finishTask
            by_cases h0 : 0 < w.loader.activeTasks <;> simp [h0]
          have hact : w.loader.finishTask.activeTasks ≤ w.loader.finishTask.maxConcurrent := by
            unfold AssetLoaderM.finishTask
            by_cases h0 : 0 < w.loader.activeTasks <;> simp [h0] <;> omega
          exact ih _ (by simpa [LoaderWorld.step] using hact)
            (by simpa [LoaderWorld.step] using hmax.trans hm)

    have h := key ops ⟨AssetLoaderM.new maxConcurrent, 0, []⟩
      (by simp [AssetLoaderM.new]) (by simp [AssetLoaderM.new])
    rw [LoaderWorld.run]
    omega
  · intro s h
    simp [AssetLoaderM.finishTask, h]

/-- Witness for C2: `finish_task` on a fresh loader (zero active tasks)
leaves zero active tasks, and a run of five submissions followed by an
admission pass under `max_concurrent = 4` stays within the bound. -/
theorem active_tasks_bounded_witness :
    (LoaderWorld.run (fun _ => 7)  4
          [.submit "a.png".data .preload, .submit "b.png".data .currentAccess,
            .submit "c.png".data .hotReload, .submit "d.png".data .preload,
            .submit "e.png".data .currentAccess, .processQueue,
            .finish, .finish, .finish, .finish, .finish, .finish,
            .processQueue]).loader.activeTasks ≤ 4 ∧
      ((AssetLoaderM.new 4).finishTask).activeTasks = 0 :=
  ⟨active_tasks_bounded.1 (fun _ => 7) 4 _,
    active_tasks_bounded.2 (AssetLoaderM.new 4) (by decide)⟩

/-! ### Claim C10 -/

/-- C10: `register_task` overwrites unconditionally: after registering task
`t1` (entity `e1`) and then task `t2` (entity `e2`) for the same handle id,
`get_entity_by_handle` returns only `e2` (completion events for the shared
handle route only to the most recently registered task), while
`task_to_handle` still maps both `t1` and `t2` to the handle id. -/
theorem register_task_overwrite :
    ∀ (s : AssetLoaderM) (t1 e1 t2 e2 hid : Nat),
      ((s.registerTask t1 e1 hid).registerTask t2 e2 hid).getEntityByHandle hid =
          some e2 ∧
        ((s.registerTask t1 e1 hid).registerTask t2 e2 hid).getHandleIdByTask t1 =
          some hid ∧
        ((s.registerTask t1 e1 hid).registerTask t2 e2 hid).getHandleIdByTask t2 =
          some hid := by
  intro s t1 e1 t2 e2 hid
  refine ⟨?_, ?_, ?_⟩
  · simp [AssetLoaderM.registerTask, AssetLoaderM.getEntityByHandle,
      alLookup_update_self]
  · simp only [AssetLoaderM.registerTask, AssetLoaderM.getHandleIdByTask]
    by_cases h : t1 = t2
    · subst h
      simp [alLookup_update_self]
    · rw [alLookup_update_ne _ _ h, alLookup_update_self]
  · simp [AssetLoaderM.registerTask, AssetLoaderM.getHandleIdByTask,
      alLookup_update_self]

/-! ### Claim C8 -/

/-- C8 counterexample: an 800×200 source whose texture format the
dynamic-image conversion does not support exceeds the 256 target, yet
`resize_image_for_preview` returns `none` — so `none` is not returned
exactly when both dimensions are ≤ the target size. -/
theorem resize_none_counterexample :
    resizeImageForPreview ⟨800, 200, .r32Float⟩ 256 = none ∧
      ¬(800 ≤ 256 ∧ 200 ≤ 256) := by
  constructor
  · rfl
  · decide

/-- C8 (amended): for sources the dynamic-image conversion supports,
`resize_image_for_preview` returns `none` exactly when width and height are
both ≤ the target size, and otherwise scales the longer edge to the target
and the shorter edge proportionally with truncation; in particular an
800×200 source at target 256 yields exactly 256×64 and a 200×800 source
yields exactly 64×256.  (When the conversion fails the function returns
`none` as well, reusing the original handle.) -/
theorem resize_preview_spec :
    (∀ (img : ImageM) (target : Nat), (∃ d, img.tryIntoDynamic = .ok d) →
        (resizeImageForPreview img target = none ↔
          img.width ≤ target ∧ img.height ≤ target) ∧
        (img.height < img.width → target < img.width →
          resizeImageForPreview img target =
            some ⟨target, img.height * target / img.width, .rgba8UnormSrgb⟩) ∧
        (img.width ≤ img.height → target < img.height →
          resizeImageForPreview img target =
            some ⟨img.width * target / img.height, target, .rgba8UnormSrgb⟩)) ∧
      resizeImageForPreview ⟨800, 200, .rgba8UnormSrgb⟩ 256 =
          some ⟨256, 64, .rgba8UnormSrgb⟩ ∧
      resizeImageForPreview ⟨200, 800, .rgba8UnormSrgb⟩ 256 =
          some ⟨64, 256, .rgba8UnormSrgb⟩ := by
  refine ⟨?_, by rfl, by rfl⟩
  intro img target hconv
  obtain ⟨d, hd⟩ := hconv
  unfold resizeImageForPreview
  refine ⟨?_, ?_, ?_⟩
  · by_cases hsz : img.width ≤ target ∧ img.height ≤ target
    · simp [hsz]
    · simp only [hsz, if_false, hd]
      simp [iff_false, hsz]
  · intro hwh htw
    have hsz : ¬(img.width ≤ target ∧ img.height ≤ target) := by omega
    simp only [hsz, if_false, hd]
    have : img.width > img.height := hwh
    simp [this, DynImageM.resizeExact, imageFromDynamic]
  · intro hwh hth
    have hsz : ¬(img.width ≤ target ∧ img.height ≤ target) := by omega
    simp only [hsz, if_false, hd]
    have : ¬(img.width > img.height) := by omega
    simp [this, DynImageM.resizeExact, imageFromDynamic]

/-- Witness for C8: the amended theorem applied at the 800×200 RGBA source
with target 256 (conversion succeeds, width exceeds target). -/
theorem resize_preview_spec_witness :
    resizeImageForPreview ⟨800, 200, .rgba8UnormSrgb⟩ 256 =
      some ⟨256, (200 : Nat) * 256 / 800, .rgba8UnormSrgb⟩ :=
  ((resize_preview_spec.1 ⟨800, 200, .rgba8UnormSrgb⟩ 256
    ⟨⟨800, 200⟩, rfl⟩).2.1 (by decide) (by decide))

/-! ### Digit lemmas -/

theorem digitChar_props : ∀ d, d < 10 →
    (digitChar d).toNat - 48 = d ∧ isAsciiDigit (digitChar d) = true ∧
      digitChar d ≠ 'x' ∧ digitChar d ≠ '_' ∧ digitChar d ≠ '.' ∧
      digitChar d ≠ '/' ∧ digitChar d ≠ '+' := by
  intro d hd
  interval_cases d <;> exact ⟨by decide, by decide, by decide, by decide,
    by decide, by decide, by decide⟩

theorem parseDigitsVal_append (xs : List Char) (c : Char) :
    parseDigitsVal (xs ++ [c]) = 10 * parseDigitsVal xs + (c.toNat - 48) := by
  unfold parseDigitsVal
  rw [List.foldl_append]
  rfl

theorem natDigitsGo_props :
    ∀ (fuel n : Nat), n ≤ fuel →
      parseDigitsVal (natDigitsGo fuel n) = n ∧
        (∀ c ∈ natDigitsGo fuel n, ∃ d, d < 10 ∧ c = digitChar d) ∧
        natDigitsGo fuel n ≠ [] := by
  intro fuel
  induction fuel with
  | zero =>
    intro n hn
    have h0 : n = 0 := Nat.le_zero.mp hn
    subst h0
    refine ⟨by decide, ?_, by decide⟩
    intro c hc
    simp [natDigitsGo] at hc
    exact ⟨0, by norm_num, by simpa using hc⟩
  | succ fuel ih =>
    intro n hn
    by_cases h10 : n < 10
    · simp only [natDigitsGo, h10, if_true]
      refine ⟨?_, ?_, by simp⟩
      · show 10 * 0 + ((digitChar n).toNat - 48) = n
        rw [(digitChar_props n h10).1]
        omega
      · intro c hc
        simp at hc
        exact ⟨n, h10, hc⟩
    · simp only [natDigitsGo, h10, if_false]
      have hdiv : n / 10 ≤ fuel := by
        have := Nat.div_lt_self (by omega : 0 < n) (by norm_num : 1 < 10)
        omega
      obtain ⟨ihv, ihm, _⟩ := ih (n / 10) hdiv
      refine ⟨?_, ?_, by simp⟩
      · rw [parseDigitsVal_append, ihv, (digitChar_props (n % 10) (by omega)).1]
        omega
      · intro c hc
        rcases List.mem_append.mp hc with hc | hc
        · exact ihm c hc
        · rcases List.mem_cons.mp hc with hc | hc
          · exact ⟨n % 10, by omega, hc⟩
          · simp at hc

theorem natDigits_mem (n : Nat) :
    ∀ c ∈ natDigits n, ∃ d, d < 10 ∧ c = digitChar d :=
  (natDigitsGo_props n n (le_refl n)).2.1

theorem natDigits_ne_nil (n : Nat) : natDigits n ≠ [] :=
  (natDigitsGo_props n n (le_refl n)).2.2

theorem natDigits_no (n : Nat) :
    'x' ∉ natDigits n ∧ '_' ∉ natDigits n ∧ '.' ∉ natDigits n ∧
      '/' ∉ natDigits n ∧ '+' ∉ natDigits n := by
  refine ⟨fun hm => ?_, fun hm => ?_, fun hm => ?_, fun hm => ?_, fun hm => ?_⟩ <;>
    obtain ⟨d, hd, he⟩ := natDigits_mem n _ hm
  · exact (digitChar_props d hd).2.2.1 he.symm
  · exact (digitChar_props d hd).2.2.2.1 he.symm
  · exact (digitChar_props d hd).2.2.2.2.1 he.symm
  · exact (digitChar_props d hd).2.2.2.2.2.1 he.symm
  · exact (digitChar_props d hd).2.2.2.2.2.2 he.symm

theorem natDigits_all_digit (n : Nat) : (natDigits n).all isAsciiDigit = true := by
  rw [List.all_eq_true]
  intro c hc
  obtain ⟨d, hd, he⟩ := natDigits_mem n c hc
  rw [he]
  exact (digitChar_props d hd).2.1

theorem parseDigitsVal_natDigits (n : Nat) : parseDigitsVal (natDigits n) = n :=
  (natDigitsGo_props n n (le_refl n)).1

theorem stripLeadingPlus_eq_self {s : List Char} (h : '+' ∉ s) :
    stripLeadingPlus s = s := by
  cases s with
  | nil => rfl
  | cons c t =>
    have hc : ¬(c = '+') := fun hch => h (by simp [hch])
    simp [stripLeadingPlus, hc]

theorem parseU32_natDigits (n : Nat) (h : n < 2 ^ 32) :
    parseU32 (natDigits n) = some n := by
  unfold parseU32
  rw [stripLeadingPlus_eq_self (natDigits_no n).2.2.2.2]
  have h' : n < 4294967296 := h
  simp [natDigits_ne_nil, natDigits_all_digit, parseDigitsVal_natDigits, h']

/-! ### Split lemmas -/

theorem splitAtLastOcc_some_mem {c : Char} {s : List Char}
    {x : List Char × List Char} (h : splitAtLastOcc c s = some x) : c ∈ s := by
  induction s generalizing x with
  | nil => simp [splitAtLastOcc] at h
  | cons a rest ih =>
    simp only [splitAtLastOcc] at h
    rcases h0 : splitAtLastOcc c rest with _ | ⟨b, aft⟩ <;> rw [h0] at h <;>
      dsimp only at h
    · by_cases hac : a = c
      · simp [hac]
      · rw [if_neg hac] at h
        simp at h
    · exact List.mem_cons_of_mem _ (ih h0)

theorem splitAtLastOcc_eq_none {c : Char} {s : List Char} :
    splitAtLastOcc c s = none ↔ c ∉ s := by
  induction s with
  | nil => simp [splitAtLastOcc]
  | cons a rest ih =>
    simp only [splitAtLastOcc]
    rcases h0 : splitAtLastOcc c rest with _ | ⟨b, aft⟩ <;> dsimp only
    · by_cases hac : a = c
      · subst hac
        simp
      · rw [if_neg hac]
        have hnr : c ∉ rest := ih.mp h0
        simp [List.mem_cons, Ne.symm hac, hnr]
    · have hmem : c ∈ rest := splitAtLastOcc_some_mem h0
      simp [List.mem_cons, hmem]

theorem splitAtLastOcc_spec {c : Char} {s before after : List Char}
    (h : splitAtLastOcc c s = some (before, after)) :
    s = before ++ c :: after ∧ c ∉ after := by
  induction s generalizing before after with
  | nil => simp [splitAtLastOcc] at h
  | cons a rest ih =>
    simp only [splitAtLastOcc] at h
    rcases h0 : splitAtLastOcc c rest with _ | ⟨b, aft⟩ <;> rw [h0] at h <;>
      dsimp only at h
    · by_cases hac : a = c
      · rw [if_pos hac] at h
        simp at h
        obtain ⟨h1, h2⟩ := h
        subst h1
        subst h2
        subst hac
        exact ⟨rfl, splitAtLastOcc_eq_none.mp h0⟩
      · rw [if_neg hac] at h
        simp at h
    · simp at h
      obtain ⟨h1, h2⟩ := h
      subst h1
      obtain ⟨hs, hna⟩ := ih h0
      subst h2
      rw [hs]
      exact ⟨rfl, hna⟩

theorem splitAtLastOcc_append_cons {c : Char} {after : List Char}
    (before : List Char) (h : c ∉ after) :
    splitAtLastOcc c (before ++ c :: after) = some (before, after) := by
  induction before with
  | nil =>
    simp only [List.nil_append, splitAtLastOcc]
    rw [splitAtLastOcc_eq_none.mpr h]
    simp
  | cons a bs ih =>
    simp only [List.cons_append, splitAtLastOcc, List.append_eq]
    rw [ih]

theorem splitAtFirstOcc_append_cons {c : Char} {after : List Char}
    (before : List Char) (h : c ∉ before) :
    splitAtFirstOcc c (before ++ c :: after) = some (before, after) := by
  induction before with
  | nil => simp [splitAtFirstOcc]
  | cons a bs ih =>
    have hac : ¬(a = c) := fun he => h (by simp [he])
    simp only [List.cons_append, splitAtFirstOcc, hac, if_false, List.append_eq]
    rw [ih (fun hm => h (List.mem_cons_of_mem _ hm))]

/-! ### Path lemmas -/

theorem mem_of_getLast? {l : List Char} {a : Char} (h : l.getLast? = some a) :
    a ∈ l := by
  induction l with
  | nil => simp at h
  | cons x t ih =>
    cases t with
    | nil =>
      simp at h
      simp [h]
    | cons y u =>
      rw [List.getLast?_cons_cons] at h
      exact List.mem_cons_of_mem _ (ih h)

theorem head_dropWhile_false {p : Char → Bool} {l : List Char} {a : Char}
    (h : (l.dropWhile p).head? = some a) : p a = false := by
  induction l with
  | nil => simp [List.dropWhile] at h
  | cons x t ih =>
    rw [List.dropWhile_cons] at h
    by_cases hx : p x = true
    · rw [if_pos hx] at h
      exact ih h
    · rw [if_neg hx] at h
      simp at h
      subst h
      simpa using hx

theorem strip_eq_self {s : List Char} (h : s.getLast? ≠ some '/') :
    stripTrailingSlashes s = s := by
  unfold stripTrailingSlashes
  rcases hrev : s.reverse with _ | ⟨c, t⟩
  · have hs : s = [] := by simpa using congrArg List.reverse hrev
    simp [hs]
  · have hc : ¬(c = '/') := by
      intro he
      apply h
      rw [← List.head?_reverse, hrev, he]
      rfl
    have hdw : List.dropWhile (fun c => decide (c = '/')) (c :: t) = c :: t := by
      rw [List.dropWhile_cons, if_neg (by simp [hc])]
    rw [hdw, ← hrev, List.reverse_reverse]

theorem strip_no_slash {s : List Char} (h : '/' ∉ s) :
    stripTrailingSlashes s = s := by
  apply strip_eq_self
  intro hlast
  exact h (mem_of_getLast? hlast)

theorem strip_getLast {s : List Char} :
    (stripTrailingSlashes s).getLast? ≠ some '/' := by
  intro hlast
  unfold stripTrailingSlashes at hlast
  rw [List.getLast?_reverse] at hlast
  have := head_dropWhile_false hlast
  simp at this

theorem fileNameOf_facts {p f : List Char} (h : fileNameOf p = some f) :
    f ≠ [] ∧ f ≠ ['.'] ∧ f ≠ ['.', '.'] ∧ '/' ∉ f := by
  simp only [fileNameOf] at h
  rcases hsp : splitAtLastOcc '/' (stripTrailingSlashes p) with _ | ⟨b, aft⟩ <;>
    rw [hsp] at h <;> dsimp only at h
  · split at h
    · exact absurd h (by simp)
    · next hguard =>
      push_neg at hguard
      simp at h
      subst h
      exact ⟨hguard.1, hguard.2.1, hguard.2.2, splitAtLastOcc_eq_none.mp hsp⟩
  · split at h
    · exact absurd h (by simp)
    · next hguard =>
      push_neg at hguard
      simp at h
      subst h
      exact ⟨hguard.1, hguard.2.1, hguard.2.2, (splitAtLastOcc_spec hsp).2⟩

theorem parentOf_form {p d : List Char} (h : parentOf p = some d) :
    d = [] ∨ d = ['/'] ∨ (d ≠ [] ∧ d.getLast? ≠ some '/') := by
  simp only [parentOf] at h
  by_cases ht : stripTrailingSlashes p = []
  · rw [if_pos ht] at h
    simp at h
  · rw [if_neg ht] at h
    rcases hsp : splitAtLastOcc '/' (stripTrailingSlashes p) with _ | ⟨b, aft⟩ <;>
      rw [hsp] at h <;> try dsimp only at h
    · simp at h
      exact Or.inl h
    · by_cases hb : b = []
      · rw [if_pos hb] at h
        simp at h
        exact Or.inr (Or.inl h.symm)
      · rw [if_neg hb] at h
        by_cases hbs : stripTrailingSlashes b = []
        · rw [if_pos hbs] at h
          simp at h
          exact Or.inr (Or.inl h.symm)
        · rw [if_neg hbs] at h
          simp at h
          subst h
          exact Or.inr (Or.inr ⟨hbs, strip_getLast⟩)

theorem joinPath_nil (f : List Char) : joinPath [] f = f := by
  simp [joinPath]

theorem joinPath_root (f : List Char) : joinPath ['/'] f = '/' :: f := by
  simp [joinPath]

theorem joinPath_of_ne {d : List Char} (h1 : d ≠ []) (h2 : d.getLast? ≠ some '/')
    (f : List Char) : joinPath d f = d ++ '/' :: f := by
  simp [joinPath, h1, h2]

theorem fileName_parent_join {d nf : List Char}
    (hd : d = [] ∨ d = ['/'] ∨ (d ≠ [] ∧ d.getLast? ≠ some '/'))
    (h1 : nf ≠ []) (h2 : '/' ∉ nf) (h3 : nf ≠ ['.']) (h4 : nf ≠ ['.', '.']) :
    fileNameOf (joinPath d nf) = some nf ∧ parentOf (joinPath d nf) = some d := by
  have hnfLast : nf.getLast? ≠ some '/' := fun hl => h2 (mem_of_getLast? hl)
  rcases hd with hd | hd | ⟨hdne, hdl⟩
  · subst hd
    rw [joinPath_nil]
    have hstrip : stripTrailingSlashes nf = nf := strip_eq_self hnfLast
    constructor
    · simp only [fileNameOf, hstrip]
      rw [splitAtLastOcc_eq_none.mpr h2]
      dsimp only
      rw [if_neg (by simp [h1, h3, h4])]
    · simp only [parentOf, hstrip]
      rw [if_neg h1, splitAtLastOcc_eq_none.mpr h2]
  · subst hd
    rw [joinPath_root]
    have hstrip : stripTrailingSlashes ('/' :: nf) = '/' :: nf := by
      apply strip_eq_self
      rw [show ('/' :: nf) = ['/'] ++ nf from rfl,
        List.getLast?_append_of_ne_nil _ h1]
      exact hnfLast
    have hsplit : splitAtLastOcc '/' ('/' :: nf) = some ([], nf) :=
      splitAtLastOcc_append_cons [] h2
    constructor
    · simp only [fileNameOf, hstrip, hsplit]
      rw [if_neg (by simp [h1, h3, h4])]
    · simp only [parentOf, hstrip]
      rw [if_neg (by simp), hsplit]
      try dsimp only
      rw [if_pos rfl]
  · rw [joinPath_of_ne hdne hdl]
    have hstrip : stripTrailingSlashes (d ++ '/' :: nf) = d ++ '/' :: nf := by
      apply strip_eq_self
      rw [@List.getLast?_append_of_ne_nil _ _ ('/' :: nf) (by simp),
        show ('/' :: nf) = ['/'] ++ nf from rfl,
        List.getLast?_append_of_ne_nil _ h1]
      exact hnfLast
    have hsplit : splitAtLastOcc '/' (d ++ '/' :: nf) = some (d, nf) :=
      splitAtLastOcc_append_cons d h2
    constructor
    · simp only [fileNameOf, hstrip, hsplit]
      rw [if_neg (by simp [h1, h3, h4])]
    · simp only [parentOf, hstrip]
      rw [if_neg (by simp [hdne]), hsplit]
      try dsimp only
      rw [if_neg hdne]
      try dsimp only
      rw [strip_eq_self hdl, if_neg hdne]

/-! ### Cache-key roundtrip -/

theorem newFileName_props {f : List Char} (r : Nat) (hf : '/' ∉ f) :
    newFileNameForResolution f r ≠ [] ∧ '/' ∉ newFileNameForResolution f r ∧
      newFileNameForResolution f r ≠ ['.'] ∧
      newFileNameForResolution f r ≠ ['.', '.'] := by
  have hno := natDigits_no r
  have hu : '_' ∈ newFileNameForResolution f r := by
    unfold newFileNameForResolution
    rcases h : splitAtLastOcc '.' f with _ | ⟨name, ext⟩ <;> simp
  have hslash : '/' ∉ newFileNameForResolution f r := by
    unfold newFileNameForResolution
    rcases h : splitAtLastOcc '.' f with _ | ⟨name, ext⟩ <;> dsimp only <;> intro hm
    · rcases List.mem_append.mp hm with hm | hm
      · rcases List.mem_append.mp hm with hm | hm
        · exact hf hm
        · rcases List.mem_cons.mp hm with hm | hm
          · exact absurd hm (by decide)
          · exact hno.2.2.2.1 hm
      · rcases List.mem_cons.mp hm with hm | hm
        · exact absurd hm (by decide)
        · exact hno.2.2.2.1 hm
    · obtain ⟨hsp, hext⟩ := splitAtLastOcc_spec h
      subst hsp
      rcases List.mem_append.mp hm with hm | hm
      · rcases List.mem_append.mp hm with hm | hm
        · rcases List.mem_append.mp hm with hm | hm
          · exact hf (List.mem_append.mpr (Or.inl hm))
          · rcases List.mem_cons.mp hm with hm | hm
            · exact absurd hm (by decide)
            · exact hno.2.2.2.1 hm
        · rcases List.mem_cons.mp hm with hm | hm
          · exact absurd hm (by decide)
          · exact hno.2.2.2.1 hm
      · rcases List.mem_cons.mp hm with hm | hm
        · exact absurd hm (by decide)
        · exact hf (List.mem_append.mpr (Or.inr (List.mem_cons_of_mem _ hm)))
  refine ⟨?_, hslash, ?_, ?_⟩
  · intro he
    rw [he] at hu
    simp at hu
  · intro he
    rw [he] at hu
    simp at hu
  · intro he
    rw [he] at hu
    simp at hu

theorem extract_newFileName (f : List Char) (r : Nat) (hr : r < 2 ^ 32) :
    extractResolutionFromFilename (newFileNameForResolution f r) = some (f, r) := by
  have hno := natDigits_no r
  have hsuffix : parseResolutionSuffix (natDigits r ++ 'x' :: natDigits r) = some r := by
    unfold parseResolutionSuffix
    rw [splitAtFirstOcc_append_cons _ hno.1]
    dsimp only
    rw [parseU32_natDigits r hr]
    dsimp only
    rw [if_pos ⟨rfl, natDigits_all_digit r⟩]
  have hmark : '_' ∉ natDigits r ++ 'x' :: natDigits r := by
    intro hm
    rcases List.mem_append.mp hm with hm | hm
    · exact hno.2.1 hm
    · rcases List.mem_cons.mp hm with hm | hm
      · exact absurd hm (by decide)
      · exact hno.2.1 hm
  unfold newFileNameForResolution extractResolutionFromFilename
  rcases h : splitAtLastOcc '.' f with _ | ⟨name, ext⟩ <;> dsimp only
  · have hfdot : '.' ∉ f := splitAtLastOcc_eq_none.mp h
    have hnone : splitAtLastOcc '.'
        (f ++ '_' :: natDigits r ++ 'x' :: natDigits r) = none := by
      rw [splitAtLastOcc_eq_none]
      intro hm
      rcases List.mem_append.mp hm with hm | hm
      · rcases List.mem_append.mp hm with hm | hm
        · exact hfdot hm
        · rcases List.mem_cons.mp hm with hm | hm
          · exact absurd hm (by decide)
          · exact hno.2.2.1 hm
      · rcases List.mem_cons.mp hm with hm | hm
        · exact absurd hm (by decide)
        · exact hno.2.2.1 hm
    rw [hnone]
    dsimp only
    have hre : f ++ '_' :: natDigits r ++ 'x' :: natDigits r =
        f ++ '_' :: (natDigits r ++ 'x' :: natDigits r) := by
      simp
    rw [hre, splitAtLastOcc_append_cons f hmark]
    dsimp only
    rw [hsuffix]
  · obtain ⟨hsp, hext⟩ := splitAtLastOcc_spec h
    have hre : name ++ '_' :: natDigits r ++ 'x' :: natDigits r ++ '.' :: ext =
        (name ++ '_' :: (natDigits r ++ 'x' :: natDigits r)) ++ '.' :: ext := by
      simp
    rw [hre, splitAtLastOcc_append_cons _ hext]
    dsimp only
    rw [splitAtLastOcc_append_cons name hmark]
    dsimp only
    rw [hsuffix]
    dsimp only
    rw [← hsp]

theorem cachePath_roundtrip_core {p : List Char} {r : Nat} (hg : goodPath p = true)
    (hr : r < 2 ^ 32) :
    parseCachePath (cachePathForResolution p r) = some (p, r) := by
  unfold goodPath at hg
  rcases hf : fileNameOf p with _ | f <;> rw [hf] at hg
  · simp at hg
  · rcases hd : parentOf p with _ | d <;> rw [hd] at hg
    · simp at hg
    · have hpj : p = joinPath d f := of_decide_eq_true hg
      have hfacts := fileNameOf_facts hf
      have hform := parentOf_form hd
      obtain ⟨hn1, hn2, hn3, hn4⟩ := @newFileName_props f r hfacts.2.2.2
      have hjoin := fileName_parent_join hform hn1 hn2 hn3 hn4
      unfold cachePathForResolution
      rw [hf]
      dsimp only
      rw [hd]
      dsimp only
      unfold parseCachePath
      rw [hjoin.1]
      dsimp only
      rw [extract_newFileName f r hr]
      dsimp only
      rw [hjoin.2]
      dsimp only
      rw [← hpj]

/-! ### Claim C6 -/

/-- C6 counterexample: for the asset path `..` (which has no file name
component) the cache key is `.._64x64`, and `parse_cache_path` fails on it
(the name part before the last `.` contains no `_`), so the derivation is
not invertible for every path. -/
theorem cache_path_roundtrip_counterexample :
    parseCachePath (cachePathForResolution ['.', '.'] 64) = none ∧
      parseCachePath (cachePathForResolution ['.', '.'] 64) ≠
        some (['.', '.'], 64) := by
  constructor
  · decide
  · decide

/-- C6 (amended): for every asset path with a normal file-name component
(written canonically, without trailing or duplicate slashes) and every
`u32` resolution, `parse_cache_path (cache_path_for_resolution p r)`
recovers exactly `(p, r)`; paths without a file name (such as `..`) are not
recovered. -/
theorem cache_path_roundtrip :
    ∀ (p : List Char) (r : Nat), goodPath p = true → r < 2 ^ 32 →
      parseCachePath (cachePathForResolution p r) = some (p, r) := by
  intro p r hg hr
  exact cachePath_roundtrip_core hg hr

/-- Witness for C6: the roundtrip at `assets/test.png` with resolution 64. -/
theorem cache_path_roundtrip_witness :
    parseCachePath (cachePathForResolution ("assets/test.png".data) 64) =
      some ("assets/test.png".data, 64) :=
  cache_path_roundtrip ("assets/test.png".data) 64 (by decide) (by decide)

/-! ### Cache invariant preservation -/

theorem cachePath_inj {p1 p2 : List Char} {r1 r2 : Nat}
    (h1 : goodPath p1 = true) (h2 : goodPath p2 = true)
    (hr1 : r1 < 2 ^ 32) (hr2 : r2 < 2 ^ 32)
    (he : cachePathForResolution p1 r1 = cachePathForResolution p2 r2) :
    p1 = p2 ∧ r1 = r2 := by
  have e1 := cachePath_roundtrip_core h1 hr1
  have e2 := cachePath_roundtrip_core h2 hr2
  rw [he, e2] at e1
  simp at e1
  exact ⟨e1.1.symm, e1.2.symm⟩

theorem cacheWF_empty (idFn : List Char → Nat) : cacheWF idFn PreviewCacheM.empty := by
  refine ⟨⟨?_, ?_⟩, ?_, ?_, ?_⟩ <;>
    simp [PreviewCacheM.empty, alLookup, cacheMirror, cacheProv, alKeys]

theorem insert_preserves_WF {idFn : List Char → Nat} {c : PreviewCacheM}
    {p : List Char} {r img t : Nat}
    (hwf : cacheWF idFn c) (hp : goodPath p = true) (hr0 : 0 < r)
    (hr : r < 2 ^ 32) :
    cacheWF idFn (c.insert p (idFn p) r img t) := by
  obtain ⟨⟨hm1, hm2⟩, hprov, hnd1, hnd2⟩ := hwf
  have main : ∀ newPaths : List (List Char),
      cachePathForResolution p r ∈ newPaths →
      (∀ x ∈ newPaths,
        x = cachePathForResolution p r ∨
          x ∈ (alLookup (idFn p) c.idToPaths).getD []) →
      (∀ x ∈ (alLookup (idFn p) c.idToPaths).getD [], x ∈ newPaths) →
      cacheWF idFn
        ⟨alUpdate (cachePathForResolution p r) ⟨img, idFn p, r, t⟩ c.pathCache,
          alUpdate (idFn p) newPaths c.idToPaths⟩ := by
    intro newPaths hk0mem hsub hsup
    refine ⟨⟨?_, ?_⟩, ?_, alKeys_update_nodup _ _ hnd1, alKeys_update_nodup _ _ hnd2⟩
    · -- every path-index key is listed under its entry's identity
      intro k e hlook
      by_cases hk : k = cachePathForResolution p r
      · subst hk
        rw [alLookup_update_self] at hlook
        cases hlook
        exact ⟨newPaths, alLookup_update_self _ _ _, hk0mem⟩
      · rw [alLookup_update_ne _ _ hk] at hlook
        obtain ⟨l, hl, hkl⟩ := hm1 k e hlook
        by_cases hid : e.assetId = idFn p
        · refine ⟨newPaths, by rw [hid]; exact alLookup_update_self _ _ _, ?_⟩
          apply hsup
          rw [hid] at hl
          simp [hl]
          exact hkl
        · refine ⟨l, ?_, hkl⟩
          rw [alLookup_update_ne _ _ hid]
          exact hl
    · -- every listed path is a key with matching identity
      intro i l hl k hkl
      by_cases hid : i = idFn p
      · subst hid
        rw [alLookup_update_self] at hl
        cases hl
        rcases hsub k hkl with hk | hk
        · subst hk
          exact ⟨⟨img, idFn p, r, t⟩, alLookup_update_self _ _ _, rfl⟩
        · rcases hlook0 : alLookup (idFn p) c.idToPaths with _ | l0
          · rw [hlook0] at hk
            simp at hk
          · rw [hlook0] at hk
            simp at hk
            obtain ⟨e, hke, hei⟩ := hm2 (idFn p) l0 hlook0 k hk
            by_cases hkk : k = cachePathForResolution p r
            · subst hkk
              exact ⟨⟨img, idFn p, r, t⟩, alLookup_update_self _ _ _, rfl⟩
            · exact ⟨e, by rw [alLookup_update_ne _ _ hkk]; exact hke, hei⟩
      · rw [alLookup_update_ne _ _ hid] at hl
        obtain ⟨e, hke, hei⟩ := hm2 i l hl k hkl
        have hkne : k ≠ cachePathForResolution p r := by
          intro hk
          subst hk
          obtain ⟨p', r', hg', _, hr', hkey, hid', _⟩ := hprov _ _ hke
          obtain ⟨hpp, _⟩ := cachePath_inj hg' hp hr' hr hkey.symm
          rw [hpp] at hid'
          rw [hei] at hid'
          exact hid hid'
        exact ⟨e, by rw [alLookup_update_ne _ _ hkne]; exact hke, hei⟩
    · -- provenance
      intro k e hlook
      by_cases hk : k = cachePathForResolution p r
      · subst hk
        rw [alLookup_update_self] at hlook
        cases hlook
        exact ⟨p, r, hp, hr0, hr, rfl, rfl, rfl⟩
      · rw [alLookup_update_ne _ _ hk] at hlook
        exact hprov k e hlook
  by_cases hmem : cachePathForResolution p r ∈ (alLookup (idFn p) c.idToPaths).getD []
  · have hins : c.insert p (idFn p) r img t =
        ⟨alUpdate (cachePathForResolution p r) ⟨img, idFn p, r, t⟩ c.pathCache,
          alUpdate (idFn p) ((alLookup (idFn p) c.idToPaths).getD []) c.idToPaths⟩ := by
      simp only [PreviewCacheM.insert]
      rw [if_pos hmem]
    rw [hins]
    exact main _ hmem (fun x hx => Or.inr hx) (fun x hx => hx)
  · have hins : c.insert p (idFn p) r img t =
        ⟨alUpdate (cachePathForResolution p r) ⟨img, idFn p, r, t⟩ c.pathCache,
          alUpdate (idFn p)
            ((alLookup (idFn p) c.idToPaths).getD [] ++ [cachePathForResolution p r])
            c.idToPaths⟩ := by
      simp only [PreviewCacheM.insert]
      rw [if_neg hmem]
    rw [hins]
    refine main _ (by simp) ?_ (fun x hx => List.mem_append.mpr (Or.inl hx))
    intro x hx
    rcases List.mem_append.mp hx with hx | hx
    · exact Or.inr hx
    · simp at hx
      exact Or.inl hx

theorem mem_cleanupKept {p k : List Char} {paths : List (List Char)} :
    k ∈ cleanupKept p paths ↔ k ∈ paths ∧ parseMatchesPath k p = false := by
  unfold cleanupKept
  rw [List.mem_filter]
  unfold parseMatchesPath
  rcases h : parseCachePath k with _ | ⟨op, res⟩ <;> simp

theorem cleanupKept_idem (p : List Char) (paths : List (List Char)) :
    cleanupKept p (cleanupKept p paths) = cleanupKept p paths := by
  unfold cleanupKept
  rw [List.filter_filter]
  congr 1
  funext x
  rw [Bool.and_self]

theorem cleanupVal_idem (p : List Char) (x : Option (List (List Char))) :
    cleanupVal p (cleanupVal p x) = cleanupVal p x := by
  rcases x with _ | paths
  · rfl
  · simp only [cleanupVal]
    by_cases h : cleanupKept p paths = []
    · rw [if_pos h]
    · rw [if_neg h]
      simp only [cleanupVal]
      rw [cleanupKept_idem, if_neg h]

theorem removePFIM_spec (c : PreviewCacheM) (id : Nat) (k : List Char) :
    (c.removePathFromIdMapping id k).pathCache = c.pathCache ∧
    (∀ i, i ≠ id →
      alLookup i (c.removePathFromIdMapping id k).idToPaths =
        alLookup i c.idToPaths) ∧
    (alLookup id (c.removePathFromIdMapping id k).idToPaths =
      (match alLookup id c.idToPaths with
        | none => none
        | some paths =>
          if paths.filter (fun p => p ≠ k) = [] then none
          else some (paths.filter (fun p => p ≠ k)))) ∧
    ((alKeys c.idToPaths).Nodup →
      (alKeys (c.removePathFromIdMapping id k).idToPaths).Nodup) := by
  unfold PreviewCacheM.removePathFromIdMapping
  rcases h : alLookup id c.idToPaths with _ | paths
  · refine ⟨rfl, fun i _ => rfl, ?_, fun hn => hn⟩
    show alLookup id c.idToPaths = none
    exact h
  · dsimp only
    by_cases hkept : paths.filter (fun p => p ≠ k) = []
    · rw [if_pos hkept]
      refine ⟨rfl, fun i hi => alLookup_remove_ne _ hi, ?_, fun hn => alKeys_remove_nodup _ hn⟩
      rw [alLookup_remove_self]
      try dsimp only
      rw [if_pos hkept]
    · rw [if_neg hkept]
      refine ⟨rfl, fun i hi => alLookup_update_ne _ _ hi, ?_, fun hn => alKeys_update_nodup _ _ hn⟩
      rw [alLookup_update_self]
      try dsimp only
      rw [if_neg hkept]

theorem cleanupIdMapping_spec (c : PreviewCacheM) (id : Nat) (p : List Char) :
    (c.cleanupIdMapping id p).pathCache = c.pathCache ∧
    (∀ i, i ≠ id →
      alLookup i (c.cleanupIdMapping id p).idToPaths = alLookup i c.idToPaths) ∧
    (alLookup id (c.cleanupIdMapping id p).idToPaths =
      cleanupVal p (alLookup id c.idToPaths)) ∧
    ((alKeys c.idToPaths).Nodup →
      (alKeys (c.cleanupIdMapping id p).idToPaths).Nodup) := by
  unfold PreviewCacheM.cleanupIdMapping
  rcases h : alLookup id c.idToPaths with _ | paths
  · refine ⟨rfl, fun i _ => rfl, ?_, fun hn => hn⟩
    show alLookup id c.idToPaths = none
    exact h
  · dsimp only
    by_cases hkept : cleanupKept p paths = []
    · rw [if_pos hkept]
      refine ⟨rfl, fun i hi => alLookup_remove_ne _ hi, ?_, fun hn => alKeys_remove_nodup _ hn⟩
      rw [alLookup_remove_self]
      simp only [cleanupVal]
      rw [if_pos hkept]
    · rw [if_neg hkept]
      refine ⟨rfl, fun i hi => alLookup_update_ne _ _ hi, ?_, fun hn => alKeys_update_nodup _ _ hn⟩
      rw [alLookup_update_self]
      simp only [cleanupVal]
      rw [if_neg hkept]

theorem removeCollect_lookup :
    ∀ (keys : List (List Char)) (m : List (List Char × PreviewCacheEntryM))
      (k' : List Char),
      alLookup k' (removeCollect keys m).1 =
        if k' ∈ keys then none else alLookup k' m := by
  intro keys
  induction keys with
  | nil => intro m k'; simp [removeCollect]
  | cons k ks ih =>
    intro m k'
    simp only [removeCollect]
    rcases h : alLookup k m with _ | e <;> dsimp only
    · by_cases hk : k' = k
      · subst hk
        rw [ih]
        by_cases hks : k' ∈ ks <;> simp [hks, h]
      · rw [ih]
        by_cases hks : k' ∈ ks <;> simp [hks, hk]
    · by_cases hk : k' = k
      · subst hk
        rw [ih]
        by_cases hks : k' ∈ ks <;> simp [hks, alLookup_remove_self]
      · rw [ih]
        by_cases hks : k' ∈ ks <;> simp [hks, hk, alLookup_remove_ne _ hk]

theorem removeCollect_nodup :
    ∀ (keys : List (List Char)) (m : List (List Char × PreviewCacheEntryM)),
      (alKeys m).Nodup → (alKeys (removeCollect keys m).1).Nodup := by
  intro keys
  induction keys with
  | nil => intro m hm; exact hm
  | cons k ks ih =>
    intro m hm
    simp only [removeCollect]
    rcases h : alLookup k m with _ | e <;> dsimp only
    · exact ih m hm
    · exact ih _ (alKeys_remove_nodup _ hm)

theorem removeCollect_ids_sub :
    ∀ (keys : List (List Char)) (m : List (List Char × PreviewCacheEntryM))
      (id : Nat), id ∈ (removeCollect keys m).2.1 →
      ∃ k ∈ keys, ∃ e, alLookup k m = some e ∧ e.assetId = id := by
  intro keys
  induction keys with
  | nil => intro m id h; simp [removeCollect] at h
  | cons k ks ih =>
    intro m id hid
    simp only [removeCollect] at hid
    rcases h : alLookup k m with _ | e <;> rw [h] at hid <;> dsimp only at hid
    · obtain ⟨k', hk', e', he', hid'⟩ := ih m id hid
      exact ⟨k', List.mem_cons_of_mem _ hk', e', he', hid'⟩
    · rcases List.mem_cons.mp hid with hid | hid
      · exact ⟨k, List.mem_cons_self _ _, e, h, hid.symm⟩
      · obtain ⟨k', hk', e', he', hid'⟩ := ih _ id hid
        have hne : k' ≠ k := by
          intro he
          subst he
          rw [alLookup_remove_self] at he'
          exact Option.noConfusion he'
        rw [alLookup_remove_ne _ hne] at he'
        exact ⟨k', List.mem_cons_of_mem _ hk', e', he', hid'⟩

theorem removeCollect_ids_complete :
    ∀ (keys : List (List Char)) (m : List (List Char × PreviewCacheEntryM)),
      keys.Nodup →
      ∀ k ∈ keys, ∀ e, alLookup k m = some e →
        e.assetId ∈ (removeCollect keys m).2.1 := by
  intro keys
  induction keys with
  | nil => intro m _ k hk; simp at hk
  | cons k0 ks ih =>
    intro m hnd k hk e he
    rw [List.nodup_cons] at hnd
    simp only [removeCollect]
    rcases h0 : alLookup k0 m with _ | e0 <;> dsimp only
    · rcases List.mem_cons.mp hk with hk | hk
      · subst hk
        rw [he] at h0
        exact Option.noConfusion h0
      · exact ih m hnd.2 k hk e he
    · rcases List.mem_cons.mp hk with hk | hk
      · subst hk
        rw [he] at h0
        cases h0
        exact List.mem_cons_self _ _
      · have hne : k ≠ k0 := fun heq => hnd.1 (heq ▸ hk)
        refine List.mem_cons_of_mem _ (ih _ hnd.2 k hk e ?_)
        rw [alLookup_remove_ne _ hne]
        exact he

theorem cleanupFold_pathCache (p : List Char) :
    ∀ (ids : List Nat) (cc : PreviewCacheM),
      (ids.foldl (fun cc assetId => cc.cleanupIdMapping assetId p) cc).pathCache =
        cc.pathCache := by
  intro ids
  induction ids with
  | nil => intro cc; rfl
  | cons id ids ih =>
    intro cc
    rw [List.foldl_cons, ih, (cleanupIdMapping_spec cc id p).1]

theorem cleanupFold_lookup (p : List Char) :
    ∀ (ids : List Nat) (cc : PreviewCacheM) (i : Nat),
      alLookup i
          (ids.foldl (fun cc assetId => cc.cleanupIdMapping assetId p) cc).idToPaths =
        if i ∈ ids then cleanupVal p (alLookup i cc.idToPaths)
        else alLookup i cc.idToPaths := by
  intro ids
  induction ids with
  | nil => intro cc i; simp
  | cons id ids ih =>
    intro cc i
    rw [List.foldl_cons, ih]
    by_cases hi : i = id
    · subst hi
      rw [(cleanupIdMapping_spec cc i p).2.2.1]
      by_cases hin : i ∈ ids <;> simp [hin, cleanupVal_idem]
    · rw [(cleanupIdMapping_spec cc id p).2.1 i hi]
      by_cases hin : i ∈ ids <;> simp [hin, hi]

theorem cleanupFold_nodup (p : List Char) :
    ∀ (ids : List Nat) (cc : PreviewCacheM),
      (alKeys cc.idToPaths).Nodup →
      (alKeys
        (ids.foldl (fun cc assetId => cc.cleanupIdMapping assetId p) cc).idToPaths).Nodup := by
  intro ids
  induction ids with
  | nil => intro cc h; exact h
  | cons id ids ih =>
    intro cc h
    rw [List.foldl_cons]
    exact ih _ ((cleanupIdMapping_spec cc id p).2.2.2 h)

theorem removeAll_preserves_WF {idFn : List Char → Nat} {c : PreviewCacheM}
    (hwf : cacheWF idFn c) (p : List Char) :
    cacheWF idFn (c.removeAllResolutionsForPath p).1 := by
  obtain ⟨⟨hm1, hm2⟩, hprov, hnd1, hnd2⟩ := hwf
  simp only [PreviewCacheM.removeAllResolutionsForPath]
  set K : List (List Char) :=
    (c.pathCache.filter (fun kv => parseMatchesPath kv.1 p)).map Prod.fst with hK
  have hKnodup : K.Nodup := by
    rw [hK]
    exact List.Nodup.sublist ((List.filter_sublist c.pathCache).map Prod.fst) hnd1
  have hKmem : ∀ k, k ∈ K ↔
      ∃ e, alLookup k c.pathCache = some e ∧ parseMatchesPath k p = true := by
    intro k
    rw [hK]
    constructor
    · intro hk
      rw [List.mem_map] at hk
      obtain ⟨⟨k', e⟩, hmem, hfst⟩ := hk
      rw [List.mem_filter] at hmem
      dsimp at hfst
      subst hfst
      exact ⟨e, alLookup_eq_some_of_mem hmem.1 hnd1, hmem.2⟩
    · rintro ⟨e, he, hmatch⟩
      rw [List.mem_map]
      exact ⟨(k, e), List.mem_filter.mpr ⟨mem_of_alLookup_eq_some he, hmatch⟩, rfl⟩
  have hlook : ∀ k', alLookup k' (removeCollect K c.pathCache).1 =
      if k' ∈ K then none else alLookup k' c.pathCache :=
    removeCollect_lookup K c.pathCache
  have hfoldPath :
      (List.foldl (fun (cc : PreviewCacheM) assetId => cc.cleanupIdMapping assetId p)
          ⟨(removeCollect K c.pathCache).1, c.idToPaths⟩
          (removeCollect K c.pathCache).2.1).pathCache =
        (removeCollect K c.pathCache).1 :=
    cleanupFold_pathCache p _ _
  have hfoldLook : ∀ i,
      alLookup i
          (List.foldl (fun (cc : PreviewCacheM) assetId => cc.cleanupIdMapping assetId p)
            ⟨(removeCollect K c.pathCache).1, c.idToPaths⟩
            (removeCollect K c.pathCache).2.1).idToPaths =
        if i ∈ (removeCollect K c.pathCache).2.1 then
          cleanupVal p (alLookup i c.idToPaths)
        else alLookup i c.idToPaths := by
    intro i
    exact cleanupFold_lookup p _ _ i
  refine ⟨⟨?_, ?_⟩, ?_, ?_, ?_⟩
  · -- mirror, first direction
    intro k e hlookk
    rw [hfoldPath, hlook] at hlookk
    by_cases hkK : k ∈ K
    · rw [if_pos hkK] at hlookk
      exact absurd hlookk (by simp)
    · rw [if_neg hkK] at hlookk
      obtain ⟨l, hl, hkl⟩ := hm1 k e hlookk
      have hmatchF : parseMatchesPath k p = false := by
        rcases hpm : parseMatchesPath k p
        · rfl
        · exact absurd ((hKmem k).mpr ⟨e, hlookk, hpm⟩) hkK
      have hmemkept : k ∈ cleanupKept p l := mem_cleanupKept.mpr ⟨hkl, hmatchF⟩
      by_cases hidin : e.assetId ∈ (removeCollect K c.pathCache).2.1
      · refine ⟨cleanupKept p l, ?_, hmemkept⟩
        have hkeptne : ¬cleanupKept p l = [] := by
          intro he
          rw [he] at hmemkept
          exact absurd hmemkept (List.not_mem_nil k)
        rw [hfoldLook, if_pos hidin, hl]
        simp only [cleanupVal]
        rw [if_neg hkeptne]
      · refine ⟨l, ?_, hkl⟩
        rw [hfoldLook, if_neg hidin]
        exact hl
  · -- mirror, second direction
    intro i l' hl' k hkl'
    rw [hfoldLook] at hl'
    by_cases hidin : i ∈ (removeCollect K c.pathCache).2.1
    · rw [if_pos hidin] at hl'
      rcases hli : alLookup i c.idToPaths with _ | l
      · rw [hli] at hl'
        exact absurd hl' (by simp [cleanupVal])
      · rw [hli] at hl'
        simp only [cleanupVal] at hl'
        by_cases hke : cleanupKept p l = []
        · rw [if_pos hke] at hl'
          exact absurd hl' (by simp)
        · rw [if_neg hke] at hl'
          cases hl'
          obtain ⟨hkl, hmF⟩ := mem_cleanupKept.mp hkl'
          obtain ⟨e, hke2, hei⟩ := hm2 i l hli k hkl
          have hkK : k ∉ K := by
            intro hk
            obtain ⟨e', he', hpm⟩ := (hKmem k).mp hk
            rw [hpm] at hmF
            exact Bool.noConfusion hmF
          refine ⟨e, ?_, hei⟩
          rw [hfoldPath, hlook, if_neg hkK]
          exact hke2
    · rw [if_neg hidin] at hl'
      obtain ⟨e, hke2, hei⟩ := hm2 i l' hl' k hkl'
      have hkK : k ∉ K := by
        intro hk
        have hcomp := removeCollect_ids_complete K c.pathCache hKnodup k hk e hke2
        rw [hei] at hcomp
        exact hidin hcomp
      refine ⟨e, ?_, hei⟩
      rw [hfoldPath, hlook, if_neg hkK]
      exact hke2
  · -- provenance
    intro k e hlookk
    rw [hfoldPath, hlook] at hlookk
    by_cases hkK : k ∈ K
    · rw [if_pos hkK] at hlookk
      exact absurd hlookk (by simp)
    · rw [if_neg hkK] at hlookk
      exact hprov k e hlookk
  · -- path-index keys nodup
    rw [hfoldPath]
    exact removeCollect_nodup K c.pathCache hnd1
  · -- reverse-index keys nodup
    exact cleanupFold_nodup p _ _ hnd2

theorem removeKey_PFIM_preserves_WF {idFn : List Char → Nat} {c : PreviewCacheM}
    (hwf : cacheWF idFn c) {k0 : List Char} {e : PreviewCacheEntryM}
    (hke : alLookup k0 c.pathCache = some e) :
    cacheWF idFn ((⟨alRemove k0 c.pathCache, c.idToPaths⟩ :
      PreviewCacheM).removePathFromIdMapping e.assetId k0) := by
  obtain ⟨⟨hm1, hm2⟩, hprov, hnd1, hnd2⟩ := hwf
  obtain ⟨hPc, hOther, hSelf, hNd⟩ :=
    removePFIM_spec ⟨alRemove k0 c.pathCache, c.idToPaths⟩ e.assetId k0
  have hPc' : ((⟨alRemove k0 c.pathCache, c.idToPaths⟩ :
      PreviewCacheM).removePathFromIdMapping e.assetId k0).pathCache =
        alRemove k0 c.pathCache := hPc
  have hOther' : ∀ i, i ≠ e.assetId →
      alLookup i ((⟨alRemove k0 c.pathCache, c.idToPaths⟩ :
        PreviewCacheM).removePathFromIdMapping e.assetId k0).idToPaths =
          alLookup i c.idToPaths := hOther
  have hSelf' : alLookup e.assetId ((⟨alRemove k0 c.pathCache, c.idToPaths⟩ :
      PreviewCacheM).removePathFromIdMapping e.assetId k0).idToPaths =
        (match alLookup e.assetId c.idToPaths with
          | none => none
          | some paths =>
            if paths.filter (fun q => q ≠ k0) = [] then none
            else some (paths.filter (fun q => q ≠ k0))) := hSelf
  refine ⟨⟨?_, ?_⟩, ?_, ?_, ?_⟩
  · intro k e' hlk
    rw [hPc'] at hlk
    have hkne : k ≠ k0 := by
      intro he
      rw [he, alLookup_remove_self] at hlk
      exact Option.noConfusion hlk
    rw [alLookup_remove_ne _ hkne] at hlk
    obtain ⟨l, hl, hkl⟩ := hm1 k e' hlk
    have hkmem : k ∈ l.filter (fun q => q ≠ k0) :=
      List.mem_filter.mpr ⟨hkl, by simp [hkne]⟩
    by_cases hid : e'.assetId = e.assetId
    · rw [hid] at hl
      refine ⟨l.filter (fun q => q ≠ k0), ?_, hkmem⟩
      rw [hid, hSelf', hl]
      have hne : ¬l.filter (fun q => q ≠ k0) = [] := by
        intro hh
        rw [hh] at hkmem
        exact absurd hkmem (List.not_mem_nil k)
      dsimp only
      rw [if_neg hne]
    · exact ⟨l, by rw [hOther' _ hid]; exact hl, hkl⟩
  · intro i l' hl' k hkl'
    by_cases hid : i = e.assetId
    · subst hid
      rw [hSelf'] at hl'
      rcases hli : alLookup e.assetId c.idToPaths with _ | l
      · rw [hli] at hl'
        simp at hl'
      · rw [hli] at hl'
        dsimp only at hl'
        by_cases hfe : l.filter (fun q => q ≠ k0) = []
        · rw [if_pos hfe] at hl'
          exact absurd hl' (by simp)
        · rw [if_neg hfe] at hl'
          cases hl'
          obtain ⟨hkl, hkne'⟩ := List.mem_filter.mp hkl'
          have hkne : k ≠ k0 := by simpa using hkne'
          obtain ⟨e2, he2, hid2⟩ := hm2 e.assetId l hli k hkl
          exact ⟨e2, by rw [hPc', alLookup_remove_ne _ hkne]; exact he2, hid2⟩
    · rw [hOther' i hid] at hl'
      obtain ⟨e2, he2, hid2⟩ := hm2 i l' hl' k hkl'
      have hkne : k ≠ k0 := by
        intro he
        rw [he, hke] at he2
        cases he2
        exact hid hid2.symm
      exact ⟨e2, by rw [hPc', alLookup_remove_ne _ hkne]; exact he2, hid2⟩
  · intro k e' hlk
    rw [hPc'] at hlk
    have hkne : k ≠ k0 := by
      intro he
      rw [he, alLookup_remove_self] at hlk
      exact Option.noConfusion hlk
    rw [alLookup_remove_ne _ hkne] at hlk
    exact hprov k e' hlk
  · rw [hPc']
    exact alKeys_remove_nodup _ hnd1
  · exact hNd hnd2

theorem removeByPath_preserves_WF {idFn : List Char → Nat} {c : PreviewCacheM}
    (hwf : cacheWF idFn c) (p : List Char) (res : Option Nat) :
    cacheWF idFn (c.removeByPath p res).1 := by
  rcases res with _ | r
  · simp only [PreviewCacheM.removeByPath]
    exact removeAll_preserves_WF hwf p
  · simp only [PreviewCacheM.removeByPath]
    rcases hke : alLookup (cachePathForResolution p r) c.pathCache with _ | e
    · exact hwf
    · dsimp only
      exact removeKey_PFIM_preserves_WF hwf hke

theorem removeByIdExact_preserves_WF {idFn : List Char → Nat} (id r : Nat) :
    ∀ (paths : List (List Char)) (c : PreviewCacheM), cacheWF idFn c →
      (∀ path ∈ paths, ∀ e, alLookup path c.pathCache = some e →
        e.assetId = id) →
      cacheWF idFn (c.removeByIdExact id paths r).1 := by
  intro paths
  induction paths with
  | nil => intro c hwf _; exact hwf
  | cons path rest ih =>
    intro c hwf hmem
    simp only [PreviewCacheM.removeByIdExact]
    rcases hke : alLookup path c.pathCache with _ | e
    · dsimp only
      exact ih c hwf (fun q hq => hmem q (List.mem_cons_of_mem _ hq))
    · dsimp only
      by_cases hres : e.resolution = r
      · rw [if_pos hres]
        have hid : e.assetId = id := hmem path (List.mem_cons_self _ _) e hke
        subst hid
        exact removeKey_PFIM_preserves_WF hwf hke
      · rw [if_neg hres]
        exact ih c hwf (fun q hq => hmem q (List.mem_cons_of_mem _ hq))

theorem removeAllKeys_lookup :
    ∀ (keys : List (List Char)) (m : List (List Char × PreviewCacheEntryM))
      (k' : List Char),
      alLookup k' (removeAllKeys keys m).1 =
        if k' ∈ keys then none else alLookup k' m := by
  intro keys
  induction keys with
  | nil => intro m k'; simp [removeAllKeys]
  | cons k ks ih =>
    intro m k'
    simp only [removeAllKeys]
    rcases h : alLookup k m with _ | e <;> dsimp only
    · by_cases hk : k' = k
      · subst hk
        rw [ih]
        by_cases hks : k' ∈ ks <;> simp [hks, h]
      · rw [ih]
        by_cases hks : k' ∈ ks <;> simp [hks, hk]
    · by_cases hk : k' = k
      · subst hk
        rw [ih]
        by_cases hks : k' ∈ ks <;> simp [hks, alLookup_remove_self]
      · rw [ih]
        by_cases hks : k' ∈ ks <;> simp [hks, hk, alLookup_remove_ne _ hk]

theorem removeAllKeys_nodup :
    ∀ (keys : List (List Char)) (m : List (List Char × PreviewCacheEntryM)),
      (alKeys m).Nodup → (alKeys (removeAllKeys keys m).1).Nodup := by
  intro keys
  induction keys with
  | nil => intro m hm; exact hm
  | cons k ks ih =>
    intro m hm
    simp only [removeAllKeys]
    rcases h : alLookup k m with _ | e <;> dsimp only
    · exact ih m hm
    · exact ih _ (alKeys_remove_nodup _ hm)

theorem removeById_preserves_WF {idFn : List Char → Nat} {c : PreviewCacheM}
    (hwf : cacheWF idFn c) (id : Nat) (res : Option Nat) :
    cacheWF idFn (c.removeById id res).1 := by
  obtain ⟨⟨hm1, hm2⟩, hprov, hnd1, hnd2⟩ := hwf
  simp only [PreviewCacheM.removeById]
  rcases hli : alLookup id c.idToPaths with _ | paths
  · exact ⟨⟨hm1, hm2⟩, hprov, hnd1, hnd2⟩
  · dsimp only
    rcases res with _ | r
    · dsimp only
      refine ⟨⟨?_, ?_⟩, ?_, ?_, ?_⟩
      · intro k e hlk
        rw [show ((⟨(removeAllKeys paths c.pathCache).1, alRemove id c.idToPaths⟩ :
            PreviewCacheM)).pathCache = (removeAllKeys paths c.pathCache).1 from rfl,
          removeAllKeys_lookup] at hlk
        by_cases hkp : k ∈ paths
        · rw [if_pos hkp] at hlk
          exact absurd hlk (by simp)
        · rw [if_neg hkp] at hlk
          obtain ⟨l, hl, hkl⟩ := hm1 k e hlk
          have hidne : e.assetId ≠ id := by
            intro he
            rw [he, hli] at hl
            cases hl
            exact hkp hkl
          refine ⟨l, ?_, hkl⟩
          show alLookup e.assetId (alRemove id c.idToPaths) = some l
          rw [alLookup_remove_ne _ hidne]
          exact hl
      · intro i l' hl' k hkl'
        replace hl' : alLookup i (alRemove id c.idToPaths) = some l' := hl'
        have hine : i ≠ id := by
          intro he
          rw [he, alLookup_remove_self] at hl'
          exact Option.noConfusion hl'
        rw [alLookup_remove_ne _ hine] at hl'
        obtain ⟨e2, he2, hid2⟩ := hm2 i l' hl' k hkl'
        have hkp : k ∉ paths := by
          intro hk
          obtain ⟨e3, he3, hid3⟩ := hm2 id paths hli k hk
          rw [he3] at he2
          cases he2
          rw [hid3] at hid2
          exact hine hid2.symm
        refine ⟨e2, ?_, hid2⟩
        show alLookup k (removeAllKeys paths c.pathCache).1 = some e2
        rw [removeAllKeys_lookup, if_neg hkp]
        exact he2
      · intro k e hlk
        replace hlk : alLookup k (removeAllKeys paths c.pathCache).1 = some e := hlk
        rw [removeAllKeys_lookup] at hlk
        by_cases hkp : k ∈ paths
        · rw [if_pos hkp] at hlk
          exact absurd hlk (by simp)
        · rw [if_neg hkp] at hlk
          exact hprov k e hlk
      · exact removeAllKeys_nodup paths c.pathCache hnd1
      · exact alKeys_remove_nodup _ hnd2
    · dsimp only
      refine removeByIdExact_preserves_WF id r paths c ⟨⟨hm1, hm2⟩, hprov, hnd1, hnd2⟩ ?_
      intro path hp e he
      obtain ⟨e', he', hid'⟩ := hm2 id paths hli path hp
      rw [he'] at he
      cases he
      exact hid'

theorem cacheStep_preserves_WF {idFn : List Char → Nat} {c : PreviewCacheM}
    (hwf : cacheWF idFn c) {op : CacheOpM} (hop : op.good = true) :
    cacheWF idFn (cacheStep idFn c op) := by
  cases op with
  | insert path res img t =>
    simp only [CacheOpM.good, Bool.and_eq_true, decide_eq_true_eq] at hop
    exact insert_preserves_WF hwf hop.1.1 hop.1.2 hop.2
  | removeByPath path res => exact removeByPath_preserves_WF hwf path res
  | removeById id res => exact removeById_preserves_WF hwf id res

theorem runCacheOps_WF (idFn : List Char → Nat) :
    ∀ (ops : List CacheOpM), (∀ op ∈ ops, op.good = true) →
      cacheWF idFn (runCacheOps idFn ops) := by
  have main : ∀ (ops : List CacheOpM) (c : PreviewCacheM), cacheWF idFn c →
      (∀ op ∈ ops, op.good = true) →
      cacheWF idFn (ops.foldl (cacheStep idFn) c) := by
    intro ops
    induction ops with
    | nil => intro c hc _; exact hc
    | cons op rest ih =>
      intro c hc hops
      exact ih _ (cacheStep_preserves_WF hc (hops op (List.mem_cons_self _ _)))
        (fun q hq => hops q (List.mem_cons_of_mem _ hq))
  intro ops hops
  exact main ops PreviewCacheM.empty (cacheWF_empty idFn) hops

theorem findHighestAux_spec (p : List Char) :
    ∀ (m : List (List Char × PreviewCacheEntryM))
      (best : Option PreviewCacheEntryM) (bestRes : Nat),
      (∀ k e, (k, e) ∈ m → ∀ q res, parseCachePath k = some (q, res) →
        res = e.resolution) →
      (bestRes ≤ (findHighestAux p m (best, bestRes)).2) ∧
      (findHighestAux p m (best, bestRes) = (best, bestRes) ∨
        ∃ k e, (k, e) ∈ m ∧ parseCachePath k = some (p, e.resolution) ∧
          findHighestAux p m (best, bestRes) = (some e, e.resolution)) ∧
      (∀ k e res, (k, e) ∈ m → parseCachePath k = some (p, res) →
        res ≤ (findHighestAux p m (best, bestRes)).2) := by
  intro m
  induction m with
  | nil =>
    intro best bestRes _
    refine ⟨le_refl _, Or.inl rfl, ?_⟩
    intro k e res hmem
    simp at hmem
  | cons kv rest ih =>
    obtain ⟨k0, e0⟩ := kv
    intro best bestRes hm
    have hm' : ∀ k e, (k, e) ∈ rest → ∀ q res,
        parseCachePath k = some (q, res) → res = e.resolution :=
      fun k e hk => hm k e (List.mem_cons_of_mem _ hk)
    simp only [findHighestAux]
    rcases hpk : parseCachePath k0 with _ | ⟨q, res0⟩ <;> dsimp only
    · obtain ⟨h1, h2, h3⟩ := ih best bestRes hm'
      refine ⟨h1, ?_, ?_⟩
      · rcases h2 with h2 | ⟨k, e, hke, hpe, hres⟩
        · exact Or.inl h2
        · exact Or.inr ⟨k, e, List.mem_cons_of_mem _ hke, hpe, hres⟩
      · intro k e res hmem hpe
        rcases List.mem_cons.1 hmem with hmem | hmem
        · cases hmem
          rw [hpk] at hpe
          exact Option.noConfusion hpe
        · exact h3 k e res hmem hpe
    · by_cases hcond : q = p ∧ res0 > bestRes
      · rw [if_pos hcond]
        obtain ⟨hq, hgt⟩ := hcond
        have hres0 : res0 = e0.resolution :=
          hm k0 e0 (List.mem_cons_self _ _) q res0 hpk
        obtain ⟨h1, h2, h3⟩ := ih (some e0) res0 hm'
        refine ⟨le_trans (le_of_lt hgt) h1, ?_, ?_⟩
        · rcases h2 with h2 | ⟨k, e, hke, hpe, hres⟩
          · refine Or.inr ⟨k0, e0, List.mem_cons_self _ _, ?_, ?_⟩
            · rw [hpk, hq, hres0]
            · rw [h2, hres0]
          · exact Or.inr ⟨k, e, List.mem_cons_of_mem _ hke, hpe, hres⟩
        · intro k e res hmem hpe
          rcases List.mem_cons.1 hmem with hmem | hmem
          · cases hmem
            rw [hpk] at hpe
            cases hpe
            exact h1
          · exact h3 k e res hmem hpe
      · rw [if_neg hcond]
        obtain ⟨h1, h2, h3⟩ := ih best bestRes hm'
        refine ⟨h1, ?_, ?_⟩
        · rcases h2 with h2 | ⟨k, e, hke, hpe, hres⟩
          · exact Or.inl h2
          · exact Or.inr ⟨k, e, List.mem_cons_of_mem _ hke, hpe, hres⟩
        · intro k e res hmem hpe
          rcases List.mem_cons.1 hmem with hmem | hmem
          · cases hmem
            rw [hpk] at hpe
            cases hpe
            have hle : res0 ≤ bestRes := by
              by_contra hlt
              exact hcond ⟨rfl, Nat.lt_of_not_le hlt⟩
            exact le_trans hle h1
          · exact h3 k e res hmem hpe

theorem findHighest_spec {idFn : List Char → Nat} {c : PreviewCacheM}
    (hwf : cacheWF idFn c) {p : List Char} (hp : goodPath p = true) :
    (∀ e, c.findHighestResolutionForPath p = some e →
      0 < e.resolution ∧ e.resolution < 2 ^ 32 ∧
      alLookup (cachePathForResolution p e.resolution) c.pathCache = some e ∧
      (∀ r' e', r' < 2 ^ 32 →
        alLookup (cachePathForResolution p r') c.pathCache = some e' →
        e'.resolution ≤ e.resolution)) ∧
    (c.findHighestResolutionForPath p = none →
      ∀ r' e', r' < 2 ^ 32 →
        alLookup (cachePathForResolution p r') c.pathCache = some e' → False) := by
  obtain ⟨_, hprov, hnd1, _⟩ := hwf
  have hm : ∀ k e, (k, e) ∈ c.pathCache → ∀ q res,
      parseCachePath k = some (q, res) → res = e.resolution := by
    intro k e hke q res hpe
    obtain ⟨p2, r2, hg2, _, hb2, hk2, _, hres2⟩ :=
      hprov k e (alLookup_eq_some_of_mem hke hnd1)
    rw [hk2, cachePath_roundtrip_core hg2 hb2] at hpe
    cases hpe
    exact hres2.symm
  obtain ⟨h1, h2, h3⟩ := findHighestAux_spec p c.pathCache none 0 hm
  have hlk : ∀ {r' : Nat} {e' : PreviewCacheEntryM}, r' < 2 ^ 32 →
      alLookup (cachePathForResolution p r') c.pathCache = some e' →
      (cachePathForResolution p r', e') ∈ c.pathCache ∧
        e'.resolution = r' ∧ 0 < r' := by
    intro r' e' hb' hlk'
    obtain ⟨p2, r2, hg2, hpos2, hb2, hk2, _, hres2⟩ := hprov _ e' hlk'
    have hpe : parseCachePath (cachePathForResolution p r') = some (p2, r2) := by
      rw [hk2, cachePath_roundtrip_core hg2 hb2]
    rw [cachePath_roundtrip_core hp hb'] at hpe
    cases hpe
    exact ⟨mem_of_alLookup_eq_some hlk', hres2, hpos2⟩
  constructor
  · intro e he
    have he' : (findHighestAux p c.pathCache (none, 0)).1 = some e := he
    rcases h2 with h2 | ⟨k, e2, hke, hpe, hres⟩
    · rw [h2] at he'
      exact absurd he' (by simp)
    · rw [hres] at he'
      cases he'
      have hres2 : (findHighestAux p c.pathCache (none, 0)).2 = e.resolution := by
        rw [hres]
      have hlke : alLookup k c.pathCache = some e :=
        alLookup_eq_some_of_mem hke hnd1
      obtain ⟨p2, r2, hg2, hpos2, hb2, hk2, _, hres3⟩ := hprov k e hlke
      have hpe2 : parseCachePath k = some (p2, r2) := by
        rw [hk2, cachePath_roundtrip_core hg2 hb2]
      rw [hpe2] at hpe
      cases hpe
      refine ⟨by rw [hres3]; exact hpos2, by rw [hres3]; exact hb2, ?_, ?_⟩
      · rw [← hres3] at hk2
        rw [← hk2]
        exact hlke
      · intro r' e' hb' hlk'
        obtain ⟨hmem', hres', _⟩ := hlk hb' hlk'
        have := h3 _ e' r' hmem' (by
          rw [cachePath_roundtrip_core hp hb'])
        rw [hres2] at this
        rw [hres']
        exact this
  · intro hnone r' e' hb' hlk'
    have hres2 : (findHighestAux p c.pathCache (none, 0)).2 = 0 := by
      rcases h2 with h2 | ⟨k, e2, _, _, hres⟩
      · rw [h2]
      · have : (findHighestAux p c.pathCache (none, 0)).1 = some e2 := by
          rw [hres]
        rw [show c.findHighestResolutionForPath p =
          (findHighestAux p c.pathCache (none, 0)).1 from rfl, this] at hnone
        exact Option.noConfusion hnone
    obtain ⟨hmem', hres', hpos'⟩ := hlk hb' hlk'
    have := h3 _ e' r' hmem' (by rw [cachePath_roundtrip_core hp hb'])
    rw [hres2] at this
    exact absurd (Nat.lt_of_lt_of_le hpos' this) (by simp)

/-- C4 (corrected): after `insert(p, id, r, img, t)` the exact query
`get_by_path(p, Some(r))` returns the entry holding exactly `img` and
resolution `r`, for every path and resolution.  The highest-resolution
query `get_by_path(p, None)` is correct only over caches reachable by good
operations (canonical inserted paths, positive `u32` resolutions) and for
paths with a normal file name: then a `Some` answer is a cached entry for
`p` of maximal resolution among all cached resolutions of `p`, and a
`None` answer means no resolution of `p` is cached.  After inserting
resolution 64 and then 256 for `a.png`, the 256 entry is returned.  (The
unrestricted claim is refuted by `get_by_path_none_counterexample`:
resolution-0 entries and paths like `..` are cached but invisible to the
`None` query.) -/
theorem get_by_path_spec (idFn : List Char → Nat) (ops : List CacheOpM)
    (hops : ops.all CacheOpM.good = true) (p : List Char)
    (hp : goodPath p = true) :
    (∀ (c : PreviewCacheM) (id r img t : Nat),
      (c.insert p id r img t).getByPath p (some r) =
        some ⟨img, id, r, t⟩) ∧
    (∀ e, (runCacheOps idFn ops).getByPath p none = some e →
      0 < e.resolution ∧
      (runCacheOps idFn ops).getByPath p (some e.resolution) = some e ∧
      ∀ r' e', r' < 2 ^ 32 →
        (runCacheOps idFn ops).getByPath p (some r') = some e' →
        e'.resolution ≤ e.resolution) ∧
    ((runCacheOps idFn ops).getByPath p none = none →
      ∀ r' e', r' < 2 ^ 32 →
        (runCacheOps idFn ops).getByPath p (some r') = some e' → False) ∧
    (runCacheOps idFn64 ops64_256).getByPath aPng none = some ⟨9, 5, 256, 2⟩ := by
  have hops' : ∀ op ∈ ops, op.good = true := by
    simpa [List.all_eq_true] using hops
  have hwf := runCacheOps_WF idFn ops hops'
  obtain ⟨hsome, hnone⟩ := findHighest_spec hwf hp
  refine ⟨?_, ?_, ?_, ?_⟩
  · intro c id r img t
    simp [PreviewCacheM.getByPath, PreviewCacheM.insert, alLookup_update_self]
  · intro e he
    obtain ⟨hpos, hb, hlk, hmax⟩ := hsome e he
    exact ⟨hpos, hlk, fun r' e' hb' hl' => hmax r' e' hb' hl'⟩
  · intro hq r' e' hb' hl'
    exact hnone hq r' e' hb' hl'
  · decide

/-- Witness for C4: the theorem at the two-insert example, instantiating
the exact-match conjunct on an insert of `a.png` at resolution 64. -/
theorem get_by_path_spec_witness :
    (PreviewCacheM.empty.insert aPng 5 64 7 1).getByPath aPng (some 64) =
      some ⟨7, 5, 64, 1⟩ :=
  (get_by_path_spec idFn64 ops64_256 (by decide) aPng (by decide)).1
    PreviewCacheM.empty 5 64 7 1

/-- C4 counterexample: a resolution-0 entry for `t.png`-style path `a.png`
is cached (the exact query returns it) yet `get_by_path(p, None)` returns
`none`; likewise an entry for the path `..`, whose cache key does not
parse, is cached at resolution 64 yet invisible to the `None` query.  So
the `None` query does not return the entry with the largest cached
resolution whenever one exists. -/
theorem get_by_path_none_counterexample :
    ((PreviewCacheM.empty.insert aPng 5 0 7 1).getByPath aPng (some 0) =
        some ⟨7, 5, 0, 1⟩ ∧
      (PreviewCacheM.empty.insert aPng 5 0 7 1).getByPath aPng none = none) ∧
    ((PreviewCacheM.empty.insert ddot 5 64 7 1).getByPath ddot (some 64) =
        some ⟨7, 5, 64, 1⟩ ∧
      (PreviewCacheM.empty.insert ddot 5 64 7 1).getByPath ddot none = none) := by
  decide

theorem removeAll_clears {idFn : List Char → Nat} {c : PreviewCacheM}
    (hwf : cacheWF idFn c)
    (hinj : ∀ q1 q2 : List Char, idFn q1 = idFn q2 → q1 = q2)
    {p : List Char} (hp : goodPath p = true) :
    (∀ r, r < 2 ^ 32 →
      alLookup (cachePathForResolution p r)
        (c.removeAllResolutionsForPath p).1.pathCache = none) ∧
    (∀ res, (c.removeAllResolutionsForPath p).1.getById (idFn p) res = none) := by
  obtain ⟨⟨hm1, hm2⟩, hprov, hnd1, hnd2⟩ := hwf
  simp only [PreviewCacheM.removeAllResolutionsForPath]
  set K : List (List Char) :=
    (c.pathCache.filter (fun kv => parseMatchesPath kv.1 p)).map Prod.fst with hK
  have hKnodup : K.Nodup := by
    rw [hK]
    exact List.Nodup.sublist ((List.filter_sublist c.pathCache).map Prod.fst) hnd1
  have hKmem : ∀ k, k ∈ K ↔
      ∃ e, alLookup k c.pathCache = some e ∧ parseMatchesPath k p = true := by
    intro k
    rw [hK]
    constructor
    · intro hk
      rw [List.mem_map] at hk
      obtain ⟨⟨k', e⟩, hmem, hfst⟩ := hk
      rw [List.mem_filter] at hmem
      dsimp at hfst
      subst hfst
      exact ⟨e, alLookup_eq_some_of_mem hmem.1 hnd1, hmem.2⟩
    · rintro ⟨e, he, hmatch⟩
      rw [List.mem_map]
      exact ⟨(k, e), List.mem_filter.mpr ⟨mem_of_alLookup_eq_some he, hmatch⟩, rfl⟩
  have hlook : ∀ k', alLookup k' (removeCollect K c.pathCache).1 =
      if k' ∈ K then none else alLookup k' c.pathCache :=
    removeCollect_lookup K c.pathCache
  have hfoldPath :
      (List.foldl (fun (cc : PreviewCacheM) assetId => cc.cleanupIdMapping assetId p)
          ⟨(removeCollect K c.pathCache).1, c.idToPaths⟩
          (removeCollect K c.pathCache).2.1).pathCache =
        (removeCollect K c.pathCache).1 :=
    cleanupFold_pathCache p _ _
  have hfoldLook : ∀ i,
      alLookup i
          (List.foldl (fun (cc : PreviewCacheM) assetId => cc.cleanupIdMapping assetId p)
            ⟨(removeCollect K c.pathCache).1, c.idToPaths⟩
            (removeCollect K c.pathCache).2.1).idToPaths =
        if i ∈ (removeCollect K c.pathCache).2.1 then
          cleanupVal p (alLookup i c.idToPaths)
        else alLookup i c.idToPaths := by
    intro i
    exact cleanupFold_lookup p _ _ i
  constructor
  · intro r hr
    rw [hfoldPath, hlook]
    by_cases hin : cachePathForResolution p r ∈ K
    · rw [if_pos hin]
    · rw [if_neg hin]
      rcases hl : alLookup (cachePathForResolution p r) c.pathCache with _ | e
      · rfl
      · exfalso
        refine hin ((hKmem _).mpr ⟨e, hl, ?_⟩)
        simp [parseMatchesPath, cachePath_roundtrip_core hp hr]
  · intro res
    simp only [PreviewCacheM.getById]
    rw [hfoldLook]
    rcases hli : alLookup (idFn p) c.idToPaths with _ | l
    · by_cases hin : idFn p ∈ (removeCollect K c.pathCache).2.1
      · rw [if_pos hin]
        simp [cleanupVal]
      · rw [if_neg hin]
    · have hall : ∀ k ∈ l, parseMatchesPath k p = true := by
        intro k hk
        obtain ⟨e, he, hid⟩ := hm2 (idFn p) l hli k hk
        obtain ⟨q, r2, hgq, _, hbq, hkq, hidq, _⟩ := hprov k e he
        have hqp : q = p := by
          refine hinj q p ?_
          rw [← hidq, hid]
        subst hqp
        simp [parseMatchesPath, hkq, cachePath_roundtrip_core hgq hbq]
      have hkept : cleanupKept p l = [] := by
        rw [List.eq_nil_iff_forall_not_mem]
        intro k hk
        obtain ⟨hkl, hmF⟩ := mem_cleanupKept.mp hk
        rw [hall k hkl] at hmF
        exact Bool.noConfusion hmF
      by_cases hin : idFn p ∈ (removeCollect K c.pathCache).2.1
      · rw [if_pos hin]
        simp [cleanupVal, hkept]
      · rw [if_neg hin]
        have hlnil : l = [] := by
          rw [List.eq_nil_iff_forall_not_mem]
          intro k hk
          obtain ⟨e, he, hid⟩ := hm2 (idFn p) l hli k hk
          have hkK : k ∈ K := (hKmem k).mpr ⟨e, he, hall k hk⟩
          have hcomp := removeCollect_ids_complete K c.pathCache hKnodup k hkK e he
          rw [hid] at hcomp
          exact hin hcomp
        subst hlnil
        rcases res with _ | r0
        · rfl
        · rfl

theorem encChars_injective : ∀ p q : List Char, encChars p = encChars q → p = q := by
  intro p
  induction p with
  | nil =>
    intro q h
    cases q with
    | nil => rfl
    | cons d rest2 => simp [encChars] at h
  | cons c rest ih =>
    intro q h
    cases q with
    | nil => simp [encChars] at h
    | cons d rest2 =>
      simp only [encChars, Nat.add_right_cancel_iff] at h
      obtain ⟨h1, h2⟩ := Nat.pair_eq_pair.mp h
      have hcd : c = d := by
        have hc := congrArg Char.ofNat h1
        rwa [Char.ofNat_toNat, Char.ofNat_toNat] at hc
      rw [hcd, ih rest2 h2]

/-- C3 (corrected): over operation sequences in which every insert derives
its asset identity from its path (as the asset system does — `load` is
idempotent per path) and identities distinguish paths, the two indexes are
strict mirrors after every sequence, and `remove_by_path(p, None)` for a
path with a normal file name clears every resolution variant of `p` and
makes `get_by_id` return `none` for `p`'s identity.  (The claim over raw
`insert(path, asset_id, ...)` calls with unconstrained identities is
refuted by `cache_mirror_counterexample`: re-inserting a key under a new
identity leaves a dangling reverse-index entry, and removal by a
file-name-less path such as `..` removes nothing.) -/
theorem cache_mirror_invariant (idFn : List Char → Nat)
    (hinj : ∀ q1 q2 : List Char, idFn q1 = idFn q2 → q1 = q2)
    (ops : List CacheOpM) (hops : ops.all CacheOpM.good = true)
    (p : List Char) (hp : goodPath p = true) (r : Nat) (hr : r < 2 ^ 32)
    (res : Option Nat) :
    cacheMirror (runCacheOps idFn ops) ∧
    alLookup (cachePathForResolution p r)
      ((runCacheOps idFn ops).removeByPath p none).1.pathCache = none ∧
    ((runCacheOps idFn ops).removeByPath p none).1.getById (idFn p) res = none := by
  have hops' : ∀ op ∈ ops, op.good = true := by
    simpa [List.all_eq_true] using hops
  have hwf := runCacheOps_WF idFn ops hops'
  obtain ⟨hclear, hgone⟩ := removeAll_clears hwf hinj hp
  exact ⟨hwf.1, hclear r hr, hgone res⟩

/-- Witness for C3: the invariant and the removal consequences at the
two-insert example over an injective identity assignment. -/
theorem cache_mirror_invariant_witness :
    cacheMirror (runCacheOps encChars ops64_256) ∧
    alLookup (cachePathForResolution aPng 64)
      ((runCacheOps encChars ops64_256).removeByPath
        aPng none).1.pathCache = none ∧
    ((runCacheOps encChars ops64_256).removeByPath
      aPng none).1.getById (encChars aPng) none = none :=
  cache_mirror_invariant encChars
    encChars_injective ops64_256 (by decide)
    aPng (by decide) 64 (by decide) none

/-- C3 counterexample: inserting the key of `a.png` at resolution 64 first
under identity 10 and then under identity 20 overwrites the path-index
entry but leaves identity 10's reverse-index list pointing at a key whose
entry now carries identity 20 — the indexes are not mirrors; and removing
by the file-name-less path `..` with `resolution = None` removes nothing:
the cached `..` entry is still found afterwards. -/
theorem cache_mirror_counterexample :
    ¬ cacheMirror ((PreviewCacheM.empty.insert aPng 10 64 7 1).insert
        aPng 20 64 9 2) ∧
    ((PreviewCacheM.empty.insert ddot 5 64 7 1).removeByPath ddot
      none).1.getByPath ddot (some 64) = some ⟨7, 5, 64, 1⟩ := by
  constructor
  · intro hm
    obtain ⟨_, hm2⟩ := hm
    obtain ⟨e, he, hid⟩ := hm2 10 [cachePathForResolution aPng 64] (by decide)
      (cachePathForResolution aPng 64) (List.mem_cons_self _ _)
    have he2 : alLookup (cachePathForResolution aPng 64)
        ((PreviewCacheM.empty.insert aPng 10 64 7 1).insert
          aPng 20 64 9 2).pathCache =
        some ⟨9, 20, 64, 2⟩ := by decide
    rw [he] at he2
    cases he2
    exact absurd hid (by decide)
  · decide

/-- C7 (confirmed): when `get_by_path` finds a cache entry for the
requested path (at the requested resolution, or at the best cached
resolution when none is requested), `request_image_preview` emits exactly
one `PreviewReady` event carrying the cached image handle, returns the
freshly allocated task id immediately, and registers no pending task: the
task manager's task-to-entity map, the cache, the image store, the pending
requests, the entity allocator and the crate's asset loader are all
unchanged. -/
theorem request_preview_cache_hit (loadFn : List Char → Nat) (w : PWorldM)
    (path : List Char) (resolution : Option Nat) (entry : PreviewCacheEntryM)
    (hhit : w.cache.getByPath path resolution = some entry) :
    (requestImagePreview loadFn w path resolution).1 =
      w.taskManager.nextTaskId ∧
    (requestImagePreview loadFn w path resolution).2.readyEvents =
      w.readyEvents ++
        [⟨w.taskManager.nextTaskId, path, entry.imageHandle⟩] ∧
    (requestImagePreview loadFn w path resolution).2.taskManager.taskToEntity =
      w.taskManager.taskToEntity ∧
    (requestImagePreview loadFn w path resolution).2.cache = w.cache ∧
    (requestImagePreview loadFn w path resolution).2.images = w.images ∧
    (requestImagePreview loadFn w path resolution).2.pending = w.pending ∧
    (requestImagePreview loadFn w path resolution).2.nextEntity =
      w.nextEntity ∧
    (requestImagePreview loadFn w path resolution).2.loader = w.loader := by
  simp [requestImagePreview, hhit, PreviewTaskManagerM.createTaskId]

/-- Witness for C7: a request against a world whose cache holds `a.png` at
resolution 64 returns task id 0 and emits the ready event with the cached
handle 7, leaving everything else unchanged. -/
theorem request_preview_cache_hit_witness :
    (requestImagePreview encChars
      ⟨⟨0, []⟩, PreviewCacheM.empty.insert aPng 5 64 7 1, [64], ⟨0, []⟩, [],
        0, 0, AssetLoaderM.new 4, []⟩ aPng (some 64)).1 = 0 ∧
    (requestImagePreview encChars
      ⟨⟨0, []⟩, PreviewCacheM.empty.insert aPng 5 64 7 1, [64], ⟨0, []⟩, [],
        0, 0, AssetLoaderM.new 4, []⟩ aPng (some 64)).2.readyEvents =
      [⟨0, aPng, 7⟩] :=
  ⟨(request_preview_cache_hit encChars
      ⟨⟨0, []⟩, PreviewCacheM.empty.insert aPng 5 64 7 1, [64], ⟨0, []⟩, [],
        0, 0, AssetLoaderM.new 4, []⟩ aPng (some 64) ⟨7, 5, 64, 1⟩
      (by decide)).1,
   (request_preview_cache_hit encChars
      ⟨⟨0, []⟩, PreviewCacheM.empty.insert aPng 5 64 7 1, [64], ⟨0, []⟩, [],
        0, 0, AssetLoaderM.new 4, []⟩ aPng (some 64) ⟨7, 5, 64, 1⟩
      (by decide)).2.1⟩

theorem monitorGo_out :
    ∀ (tasks : List (Nat × ActiveSaveTaskM))
      (acc : SaveTaskTrackerM × List (Nat × ActiveSaveTaskM) ×
        List SaveCompletedM),
      (tasks.foldl (fun acc et =>
        match et.2.result with
        | some r =>
          (acc.1.markCompleted et.2.taskId, acc.2.1,
            acc.2.2 ++ [⟨et.2.taskId, et.2.path, r⟩])
        | none => (acc.1, acc.2.1 ++ [et], acc.2.2)) acc).2.2 =
        acc.2.2 ++ tasks.filterMap (fun et =>
          (et.2.result).map (fun r =>
            (⟨et.2.taskId, et.2.path, r⟩ : SaveCompletedM))) ∧
      (tasks.foldl (fun acc et =>
        match et.2.result with
        | some r =>
          (acc.1.markCompleted et.2.taskId, acc.2.1,
            acc.2.2 ++ [⟨et.2.taskId, et.2.path, r⟩])
        | none => (acc.1, acc.2.1 ++ [et], acc.2.2)) acc).2.1 =
        acc.2.1 ++ tasks.filter (fun et => et.2.result.isNone) := by
  intro tasks
  induction tasks with
  | nil => intro acc; simp
  | cons et rest ih =>
    intro acc
    rw [List.foldl_cons]
    rcases hr : et.2.result with _ | r <;> dsimp only
    · obtain ⟨h1, h2⟩ := ih (acc.1, acc.2.1 ++ [et], acc.2.2)
      constructor
      · rw [h1]
        simp [List.filterMap_cons, hr]
      · rw [h2]
        simp [List.filter_cons, hr]
    · obtain ⟨h1, h2⟩ := ih (acc.1.markCompleted et.2.taskId, acc.2.1,
        acc.2.2 ++ [⟨et.2.taskId, et.2.path, r⟩])
      constructor
      · rw [h1]
        simp [List.filterMap_cons, hr]
      · rw [h2]
        simp [List.filter_cons, hr]

theorem monitorGo_pending_none :
    ∀ (tasks : List (Nat × ActiveSaveTaskM))
      (acc : SaveTaskTrackerM × List (Nat × ActiveSaveTaskM) ×
        List SaveCompletedM) (i : Nat),
      alLookup i acc.1.pendingSaves = none →
      alLookup i (tasks.foldl (fun acc et =>
        match et.2.result with
        | some r =>
          (acc.1.markCompleted et.2.taskId, acc.2.1,
            acc.2.2 ++ [⟨et.2.taskId, et.2.path, r⟩])
        | none => (acc.1, acc.2.1 ++ [et], acc.2.2)) acc).1.pendingSaves =
        none := by
  intro tasks
  induction tasks with
  | nil => intro acc i h; exact h
  | cons et rest ih =>
    intro acc i h
    rw [List.foldl_cons]
    rcases hr : et.2.result with _ | r <;> dsimp only
    · exact ih _ i h
    · refine ih _ i ?_
      show alLookup i (alRemove et.2.taskId acc.1.pendingSaves) = none
      by_cases hi : i = et.2.taskId
      · subst hi
        exact alLookup_remove_self _ _
      · rw [alLookup_remove_ne _ hi]
        exact h

theorem monitorGo_removes :
    ∀ (tasks : List (Nat × ActiveSaveTaskM))
      (acc : SaveTaskTrackerM × List (Nat × ActiveSaveTaskM) ×
        List SaveCompletedM) (ent : Nat) (task : ActiveSaveTaskM)
      (r : Except AssetErrorM Unit),
      (ent, task) ∈ tasks → task.result = some r →
      alLookup task.taskId (tasks.foldl (fun acc et =>
        match et.2.result with
        | some r =>
          (acc.1.markCompleted et.2.taskId, acc.2.1,
            acc.2.2 ++ [⟨et.2.taskId, et.2.path, r⟩])
        | none => (acc.1, acc.2.1 ++ [et], acc.2.2)) acc).1.pendingSaves =
        none := by
  intro tasks
  induction tasks with
  | nil =>
    intro acc ent task r hmem
    simp at hmem
  | cons et rest ih =>
    intro acc ent task r hmem hres
    rw [List.foldl_cons]
    rcases List.mem_cons.mp hmem with hmem | hmem
    · subst hmem
      rw [hres]
      dsimp only
      refine monitorGo_pending_none rest _ task.taskId ?_
      exact alLookup_remove_self _ _
    · rcases hr : et.2.result with _ | r2 <;> dsimp only
      · exact ih _ ent task r hmem hres
      · exact ih _ ent task r hmem hres

/-- C9 (corrected): `save_image` proceeds fetch → convert → create the
target directory (when the writer path has a parent) → encode → write,
each stage failing with its own error kind (`ImageNotFound`,
`ImageConversionFailed`, `DirectoryCreationFailed`, `ImageEncodeFailed`,
`FileWriteFailed` — the write failure reporting the original target
path); directory creation precedes encoding, not the other way around as
the spec orders the stages (refuted concretely by
`save_image_order_counterexample`).  And `monitor_save_completion` emits
exactly one `SaveCompleted` event per finished task, carrying the
embedded result, keeps exactly the unfinished tasks, and removes every
finished task from the tracker's pending set. -/
theorem save_image_stage_spec :
    (∀ (env : SaveEnvM) (image : Nat) (targetPath : List Char)
      (images : ImageAssetsM),
      (images.get image = none →
        saveImage env image targetPath images =
          .error (.imageNotFound image)) ∧
      (∀ imageData e, images.get image = some imageData →
        imageData.tryIntoDynamic = .error e →
        saveImage env image targetPath images =
          .error (.imageConversionFailed e.data)) ∧
      (∀ imageData dyn parent e, images.get image = some imageData →
        imageData.tryIntoDynamic = .ok dyn →
        parentOf (targetPathForWriter targetPath) = some parent →
        env.createDirectory parent = .error e →
        saveImage env image targetPath images =
          .error (.directoryCreationFailed parent e)) ∧
      (∀ imageData dyn e, images.get image = some imageData →
        imageData.tryIntoDynamic = .ok dyn →
        (∀ parent, parentOf (targetPathForWriter targetPath) = some parent →
          env.createDirectory parent = .ok ()) →
        env.encodeWebP dyn = .error e →
        saveImage env image targetPath images =
          .error (.imageEncodeFailed webPFormat e)) ∧
      (∀ imageData dyn e, images.get image = some imageData →
        imageData.tryIntoDynamic = .ok dyn →
        (∀ parent, parentOf (targetPathForWriter targetPath) = some parent →
          env.createDirectory parent = .ok ()) →
        env.encodeWebP dyn = .ok () →
        env.writeBytes (targetPathForWriter targetPath) = .error e →
        saveImage env image targetPath images =
          .error (.fileWriteFailed targetPath e)) ∧
      (∀ imageData dyn, images.get image = some imageData →
        imageData.tryIntoDynamic = .ok dyn →
        (∀ parent, parentOf (targetPathForWriter targetPath) = some parent →
          env.createDirectory parent = .ok ()) →
        env.encodeWebP dyn = .ok () →
        env.writeBytes (targetPathForWriter targetPath) = .ok () →
        saveImage env image targetPath images = .ok ())) ∧
    (∀ (tracker : SaveTaskTrackerM) (tasks : List (Nat × ActiveSaveTaskM)),
      (monitorSaveCompletion tracker tasks).2.2 =
        tasks.filterMap (fun et =>
          (et.2.result).map (fun r =>
            (⟨et.2.taskId, et.2.path, r⟩ : SaveCompletedM))) ∧
      (monitorSaveCompletion tracker tasks).2.1 =
        tasks.filter (fun et => et.2.result.isNone) ∧
      ∀ ent task r, (ent, task) ∈ tasks → task.result = some r →
        (monitorSaveCompletion tracker tasks).1.isPending task.taskId =
          false) := by
  constructor
  · intro env image targetPath images
    refine ⟨?_, ?_, ?_, ?_, ?_, ?_⟩
    · intro hget
      simp only [saveImage]
      rw [hget]
    · intro imageData e hget hconv
      simp only [saveImage]
      rw [hget]
      dsimp only
      rw [hconv]
    · intro imageData dyn parent e hget hconv hpar hmk
      simp only [saveImage]
      rw [hget]
      dsimp only
      rw [hconv]
      dsimp only
      rw [hpar]
      dsimp only
      rw [hmk]
    · intro imageData dyn e hget hconv hmkok henc
      simp only [saveImage]
      rw [hget]
      dsimp only
      rw [hconv]
      dsimp only
      rcases hpar : parentOf (targetPathForWriter targetPath) with _ | parent
      · dsimp only
        simp only [saveImageEncodeWrite]
        rw [henc]
      · dsimp only
        rw [hmkok parent hpar]
        dsimp only
        simp only [saveImageEncodeWrite]
        rw [henc]
    · intro imageData dyn e hget hconv hmkok henc hwr
      simp only [saveImage]
      rw [hget]
      dsimp only
      rw [hconv]
      dsimp only
      rcases hpar : parentOf (targetPathForWriter targetPath) with _ | parent
      · dsimp only
        simp only [saveImageEncodeWrite]
        rw [henc]
        dsimp only
        rw [hwr]
      · dsimp only
        rw [hmkok parent hpar]
        dsimp only
        simp only [saveImageEncodeWrite]
        rw [henc]
        dsimp only
        rw [hwr]
    · intro imageData dyn hget hconv hmkok henc hwr
      simp only [saveImage]
      rw [hget]
      dsimp only
      rw [hconv]
      dsimp only
      rcases hpar : parentOf (targetPathForWriter targetPath) with _ | parent
      · dsimp only
        simp only [saveImageEncodeWrite]
        rw [henc]
        dsimp only
        rw [hwr]
      · dsimp only
        rw [hmkok parent hpar]
        dsimp only
        simp only [saveImageEncodeWrite]
        rw [henc]
        dsimp only
        rw [hwr]
  · intro tracker tasks
    obtain ⟨h1, h2⟩ := monitorGo_out tasks (tracker, [], [])
    refine ⟨?_, ?_, ?_⟩
    · simp only [monitorSaveCompletion]
      rw [h1]
      rw [List.nil_append]
    · simp only [monitorSaveCompletion]
      rw [h2]
      rw [List.nil_append]
    · intro ent task r hmem hres
      have h := monitorGo_removes tasks (tracker, [], []) ent task r hmem hres
      rw [SaveTaskTrackerM.isPending,
        show alLookup task.taskId
            (monitorSaveCompletion tracker tasks).1.pendingSaves =
          none from h]
      rfl

/-- Witness for C9: with directory creation failing, saving handle 0 to
`assets/out.png` fails with `DirectoryCreationFailed` for `assets` (the
directory stage runs before the also-failing encode stage). -/
theorem save_image_stage_spec_witness :
    saveImage failEnv 0 outPngPath oneImage =
      .error (.directoryCreationFailed assetsDir ['d']) :=
  (save_image_stage_spec.1 failEnv 0 outPngPath oneImage).2.2.1
    ⟨4, 4, .rgba8UnormSrgb⟩ ⟨4, 4⟩ assetsDir ['d'] rfl rfl (by decide) rfl

/-- C9 counterexample: with both directory creation and encoding failing,
the source reports `DirectoryCreationFailed` while the spec's stage order
(encode before directory creation) would report `ImageEncodeFailed`, so
the two orders are observably different. -/
theorem save_image_order_counterexample :
    saveImage failEnv 0 outPngPath oneImage =
      .error (.directoryCreationFailed assetsDir ['d']) ∧
    saveImageSpecOrder failEnv 0 outPngPath oneImage =
      .error (.imageEncodeFailed webPFormat ['e']) ∧
    saveImage failEnv 0 outPngPath oneImage ≠
      saveImageSpecOrder failEnv 0 outPngPath oneImage := by
  refine ⟨by decide, by decide, by decide⟩

theorem hPoll_benign :
    ∀ (ts : List (Nat × ActiveLoadTaskM)) (s : HState),
      ts.foldl (hPollStep (fun _ => LoadStateM.loaded)) s = s := by
  intro ts
  induction ts with
  | nil => intro s; rfl
  | cons p ts ih =>
    intro s
    rw [List.foldl_cons]
    show ts.foldl (hPollStep (fun _ => LoadStateM.loaded))
      (hPollStep (fun _ => LoadStateM.loaded) s p) = s
    rw [show hPollStep (fun _ => LoadStateM.loaded) s p = s from rfl]
    exact ih s

theorem hPoll_after (hid : Nat) (reason : List Char) :
    ∀ (ts : List (Nat × ActiveLoadTaskM)) (s : HState),
      s.loader.getEntityByHandle hid = none →
      ts.foldl (hPollStep (fun h =>
        if h = hid then LoadStateM.failed reason else LoadStateM.loaded)) s =
        s := by
  intro ts
  induction ts with
  | nil => intro s _; rfl
  | cons p ts ih =>
    intro s hnone
    rw [List.foldl_cons]
    have hstep : hPollStep (fun h =>
        if h = hid then LoadStateM.failed reason else LoadStateM.loaded) s p =
        s := by
      simp only [hPollStep]
      by_cases hp : p.2.handleId = hid
      · rw [if_pos hp]
        dsimp only
        rw [hp, hnone]
      · rw [if_neg hp]
    rw [hstep]
    exact ih s hnone

theorem hPoll_main (hid ent : Nat) (task : ActiveLoadTaskM)
    (reason : List Char) (hhid : task.handleId = hid) :
    ∀ (ts : List (Nat × ActiveLoadTaskM)) (s : HState),
      s.loader.getEntityByHandle hid = some ent →
      (∀ p ∈ ts, p.2.handleId = hid → p = (ent, task)) →
      (ent, task) ∈ ts →
      ts.foldl (hPollStep (fun h =>
        if h = hid then LoadStateM.failed reason else LoadStateM.loaded)) s =
        hPollStep (fun h =>
          if h = hid then LoadStateM.failed reason else LoadStateM.loaded) s
          (ent, task) := by
  intro ts
  induction ts with
  | nil =>
    intro s _ _ hmem
    simp at hmem
  | cons p ts ih =>
    intro s hsome huniq hmem
    rw [List.foldl_cons]
    by_cases hp : p = (ent, task)
    · subst hp
      refine hPoll_after hid reason ts _ ?_
      simp only [hPollStep]
      rw [show ((ent, task) : Nat × ActiveLoadTaskM).2.handleId = hid
        from hhid]
      rw [if_pos rfl, hsome]
      dsimp only
      show alLookup hid (alRemove hid
        s.loader.finishTask.handleToEntity) = none
      exact alLookup_remove_self _ _
    · have hph : p.2.handleId ≠ hid := by
        intro hh
        exact hp (huniq p (List.mem_cons_self _ _) hh)
      have hstep : hPollStep (fun h =>
          if h = hid then LoadStateM.failed reason else LoadStateM.loaded) s
          p = s := by
        simp only [hPollStep]
        rw [if_neg hph]
      rw [hstep]
      have hmem' : (ent, task) ∈ ts := by
        rcases List.mem_cons.mp hmem with hmem | hmem
        · exact absurd hmem.symm hp
        · exact hmem
      exact ih s hsome (fun q hq => huniq q (List.mem_cons_of_mem _ hq)) hmem'

/-- C5 (corrected): for an in-flight task that is the unique holder of its
handle and is the one `handle_to_entity` routes that handle to, a failure
signal — a bevy failed-load event, a `Removed` asset event, or a failed
load state seen by the fallback poll — produces exactly one
`AssetLoadFailed` event, for that task id, with error `AssetRemoved` in
the removed case; nothing is re-queued (`queue` and `next_task_id` are
untouched), `active_tasks` drops by exactly one, and `task_paths`,
`handle_to_entity` and `task_to_handle` hold no entry for the task
afterwards.  (Uniqueness of the handle holder is necessary: by
`asset_failure_counterexample`, of two in-flight tasks sharing a handle —
as produced by two submissions of the same path — the earlier one gets no
`AssetLoadFailed` event at all and its `task_paths` entry survives.) -/
theorem asset_failure_exactly_once (w : LoaderWorld) (hid ent : Nat)
    (task : ActiveLoadTaskM) (reason : List Char)
    (hreg : w.loader.getEntityByHandle hid = some ent)
    (htask : alLookup ent w.tasks = some task)
    (hhid : task.handleId = hid)
    (hact : 0 < w.loader.activeTasks)
    (huniq : ∀ p ∈ w.tasks, p.2.handleId = hid → p = (ent, task)) :
    ((handleAssetEvents w [(hid, reason)] [] (fun _ => LoadStateM.loaded)).failed =
      [⟨task.taskId, task.path, .assetLoadFailed task.path reason⟩] ∧
     (handleAssetEvents w [(hid, reason)] [] (fun _ => LoadStateM.loaded)).completed = []) ∧
    ((handleAssetEvents w [] [.removed hid] (fun _ => LoadStateM.loaded)).failed =
      [⟨task.taskId, task.path, .assetRemoved task.path⟩] ∧
     (handleAssetEvents w [] [.removed hid] (fun _ => LoadStateM.loaded)).completed = []) ∧
    ((handleAssetEvents w [] [] (fun h =>
        if h = hid then LoadStateM.failed reason else LoadStateM.loaded)).failed =
      [⟨task.taskId, task.path, .assetLoadFailed task.path pollFailReason⟩] ∧
     (handleAssetEvents w [] [] (fun h =>
        if h = hid then LoadStateM.failed reason else LoadStateM.loaded)).completed = []) ∧
    (∀ out ∈ [handleAssetEvents w [(hid, reason)] [] (fun _ => LoadStateM.loaded),
        handleAssetEvents w [] [.removed hid] (fun _ => LoadStateM.loaded),
        handleAssetEvents w [] [] (fun h =>
          if h = hid then LoadStateM.failed reason else LoadStateM.loaded)],
      out.loader.activeTasks = w.loader.activeTasks - 1 ∧
      out.loader.queue = w.loader.queue ∧
      out.loader.nextTaskId = w.loader.nextTaskId ∧
      alLookup task.taskId out.loader.taskPaths = none ∧
      alLookup hid out.loader.handleToEntity = none ∧
      alLookup task.taskId out.loader.taskToHandle = none) := by
  have hmem : (ent, task) ∈ w.tasks := mem_of_alLookup_eq_some htask
  have hstepA : hFailedStep w.tasks ⟨w.loader, [], [], [], []⟩ (hid, reason) =
      ⟨(w.loader.finishTask).cleanupTask task.taskId hid, [ent], [],
        [⟨task.taskId, task.path, .assetLoadFailed task.path reason⟩], []⟩ := by
    simp only [hFailedStep]
    try dsimp only
    rw [hreg]
    try dsimp only
    rw [htask]
    simp
  have hA : handleAssetEvents w [(hid, reason)] [] (fun _ => LoadStateM.loaded) =
      ⟨(w.loader.finishTask).cleanupTask task.taskId hid,
        w.tasks.filter (fun et => !([ent].contains et.1)), [],
        [⟨task.taskId, task.path, .assetLoadFailed task.path reason⟩], []⟩ := by
    simp only [handleAssetEvents, List.foldl_cons, List.foldl_nil]
    rw [hstepA, hPoll_benign]
  have hstepB : hAssetStep w.tasks ⟨w.loader, [], [], [], []⟩ (.removed hid) =
      ⟨(w.loader.finishTask).cleanupTask task.taskId hid, [ent], [],
        [⟨task.taskId, task.path, .assetRemoved task.path⟩], []⟩ := by
    simp only [hAssetStep]
    try dsimp only
    rw [hreg]
    try dsimp only
    rw [htask]
    simp
  have hB : handleAssetEvents w [] [.removed hid] (fun _ => LoadStateM.loaded) =
      ⟨(w.loader.finishTask).cleanupTask task.taskId hid,
        w.tasks.filter (fun et => !([ent].contains et.1)), [],
        [⟨task.taskId, task.path, .assetRemoved task.path⟩], []⟩ := by
    simp only [handleAssetEvents, List.foldl_cons, List.foldl_nil]
    rw [hstepB, hPoll_benign]
  have hstepC : hPollStep (fun h =>
      if h = hid then LoadStateM.failed reason else LoadStateM.loaded)
      ⟨w.loader, [], [], [], []⟩ (ent, task) =
      ⟨(w.loader.finishTask).cleanupTask task.taskId hid, [ent], [],
        [⟨task.taskId, task.path, .assetLoadFailed task.path pollFailReason⟩],
        []⟩ := by
    simp only [hPollStep]
    rw [show ((ent, task) : Nat × ActiveLoadTaskM).2.handleId = hid
      from hhid]
    rw [if_pos rfl]
    try dsimp only
    rw [hreg]
    simp
  have hC : handleAssetEvents w [] [] (fun h =>
      if h = hid then LoadStateM.failed reason else LoadStateM.loaded) =
      ⟨(w.loader.finishTask).cleanupTask task.taskId hid,
        w.tasks.filter (fun et => !([ent].contains et.1)), [],
        [⟨task.taskId, task.path, .assetLoadFailed task.path pollFailReason⟩],
        []⟩ := by
    simp only [handleAssetEvents, List.foldl_cons, List.foldl_nil]
    rw [hPoll_main hid ent task reason hhid w.tasks _ hreg huniq hmem, hstepC]
  have hLact : ((w.loader.finishTask).cleanupTask task.taskId hid).activeTasks =
      w.loader.activeTasks - 1 := by
    simp [AssetLoaderM.cleanupTask, AssetLoaderM.finishTask, hact]
  have hLq : ((w.loader.finishTask).cleanupTask task.taskId hid).queue =
      w.loader.queue := by
    by_cases h0 : 0 < w.loader.activeTasks <;>
      simp [AssetLoaderM.cleanupTask, AssetLoaderM.finishTask, h0]
  have hLn : ((w.loader.finishTask).cleanupTask task.taskId hid).nextTaskId =
      w.loader.nextTaskId := by
    by_cases h0 : 0 < w.loader.activeTasks <;>
      simp [AssetLoaderM.cleanupTask, AssetLoaderM.finishTask, h0]
  have hLp : alLookup task.taskId
      ((w.loader.finishTask).cleanupTask task.taskId hid).taskPaths = none := by
    simp [AssetLoaderM.cleanupTask, alLookup_remove_self]
  have hLh : alLookup hid
      ((w.loader.finishTask).cleanupTask task.taskId hid).handleToEntity =
      none := by
    simp [AssetLoaderM.cleanupTask, alLookup_remove_self]
  have hLt : alLookup task.taskId
      ((w.loader.finishTask).cleanupTask task.taskId hid).taskToHandle =
      none := by
    simp [AssetLoaderM.cleanupTask, alLookup_remove_self]
  refine ⟨⟨?_, ?_⟩, ⟨?_, ?_⟩, ⟨?_, ?_⟩, ?_⟩
  · rw [hA]
  · rw [hA]
  · rw [hB]
  · rw [hB]
  · rw [hC]
  · rw [hC]
  · intro out hout
    simp only [List.mem_cons, List.not_mem_nil, or_false] at hout
    rcases hout with h | h | h
    · subst h
      rw [hA]
      exact ⟨hLact, hLq, hLn, hLp, hLh, hLt⟩
    · subst h
      rw [hB]
      exact ⟨hLact, hLq, hLn, hLp, hLh, hLt⟩
    · subst h
      rw [hC]
      exact ⟨hLact, hLq, hLn, hLp, hLh, hLt⟩

/-- Witness for C5: in the single-task world (one submission of `a.png`
loaded as handle 9), a `Removed` event for handle 9 yields exactly the one
`AssetLoadFailed` event for task 0 with the `AssetRemoved` error. -/
theorem asset_failure_exactly_once_witness :
    (handleAssetEvents oneTaskWorld [] [.removed 9]
      (fun _ => LoadStateM.loaded)).failed =
      [⟨0, aPng, .assetRemoved aPng⟩] :=
  ((asset_failure_exactly_once oneTaskWorld 9 0 ⟨0, aPng, 9, .currentAccess⟩
    ['x'] (by decide) (by decide) rfl (by decide) (by decide)).2.1).1

/-- C5 counterexample: after submitting `a.png` twice and admitting both
tasks, both in-flight tasks map to handle 5 but `handle_to_entity` routes
handle 5 only to the later task's entity.  When the asset system reports
the failure of handle 5, task 0 — an in-flight task whose handle failed —
receives no `AssetLoadFailed` event at all (the single emitted event names
task 1) and its `task_paths` entry survives, refuting per-task
exactly-once delivery and cleanup. -/
theorem asset_failure_counterexample :
    alLookup 0 dupWorld.loader.taskToHandle = some 5 ∧
    alLookup 1 dupWorld.loader.taskToHandle = some 5 ∧
    alLookup 0 dupWorld.loader.taskPaths = some aPng ∧
    (∀ ev ∈ (handleAssetEvents dupWorld [(5, ['x'])] []
        (fun _ => LoadStateM.loaded)).failed, ev.taskId ≠ 0) ∧
    (handleAssetEvents dupWorld [(5, ['x'])] []
      (fun _ => LoadStateM.loaded)).failed.length = 1 ∧
    alLookup 0 (handleAssetEvents dupWorld [(5, ['x'])] []
      (fun _ => LoadStateM.loaded)).loader.taskPaths = some aPng := by
  decide
